import Mathlib

/-! # Verification of `src/utility/utility.cpp`

A shallow embedding of the utility routines of the forest library
(`equalSplit`, `mostFrequentValue`, `computeConcordanceIndex`,
`checkUnorderedVariables`, `checkPositiveIntegers`, `roundToNextMultiple`) and
theorems about them.

Conventions of the embedding

* `uint` is the 32-bit `unsigned int`: values are natural numbers below
  `2 ^ 32` and every arithmetic result is reduced modulo `2 ^ 32`.
* `size_t` is the 64-bit unsigned word of an LP64 system, `int` the 32-bit
  two's complement integer.
* A `for` loop whose counter can wrap around is a function with a fuel
  argument; `none` means that the fuel ran out before the loop was left.
* `double` values that are read from the data or accumulated are modelled by
  rational numbers (finite, not NaN); the only place where a NaN can be
  produced, the final division of the concordance index, is modelled
  explicitly.
* `computeConcordanceIndex` is embedded a second time on the type `Double`,
  which has NaN and the infinities and the comparisons of `double` (`Ieee.…`);
  on finite values it is the first embedding
  (`ieee_computeConcordanceIndex_finite`).
-/

namespace Grf

/-! ## `equalSplit` -/

/-- The number of values of the C++ type `uint`, the 32-bit `unsigned int`
(the name is a typedef that `utility.cpp` takes from its headers). -/
def UINT_SIZE : Nat := 2 ^ 32

/-- The loop `for (uint i = i0; i < bound; i = i + step) result.push_back(i);`
with `uint` wrap-around of the counter. -/
def pushWhileLt : Nat → Nat → Nat → Nat → List Nat → Option (List Nat)
  | 0, _, _, _, _ => none
  | fuel + 1, i, bound, step, result =>
    if i < bound then
      pushWhileLt fuel ((i + step) % UINT_SIZE) bound step (result ++ [i])
    else
      some result

/-- The loop `for (uint i = i0; i <= bound; i = i + step) result.push_back(i);`
with `uint` wrap-around of the counter. -/
def pushWhileLe : Nat → Nat → Nat → Nat → List Nat → Option (List Nat)
  | 0, _, _, _, _ => none
  | fuel + 1, i, bound, step, result =>
    if i ≤ bound then
      pushWhileLe fuel ((i + step) % UINT_SIZE) bound step (result ++ [i])
    else
      some result

/-- The value of `(uint) ceil(length / ((double) num_parts))` for `uint`
operands and `num_parts ≠ 0`.  Both operands are below `2 ^ 32`, so the
conversion to `double` is exact and the correctly rounded quotient of a
non-integral ratio stays strictly between the two neighbouring integers (its
distance to them is at least `1 / num_parts`, far above half an ulp); hence
`ceil` of the `double` quotient is the exact integer ceiling. -/
def ceilDiv (length num_parts : Nat) : Nat :=
  (length + num_parts - 1) / num_parts

/-- The function `equalSplit(result, start, end, num_parts)`; the returned list
is the content of `result` after the call.  `none` is returned when the fuel
does not suffice for the loops, and for `num_parts = 0` on the path that
divides by `num_parts` (undefined behaviour in C++). -/
def equalSplit (fuel : Nat) (result : List Nat) (start end_ num_parts : Nat) :
    Option (List Nat) :=
  -- Return range if only 1 part
  if num_parts = 1 then
    some (result ++ [start, (end_ + 1) % UINT_SIZE])
  -- Return vector from start to end+1 if more parts than elements
  else if num_parts > (end_ + UINT_SIZE - start + 1) % UINT_SIZE then
    pushWhileLe fuel start ((end_ + 1) % UINT_SIZE) 1 result
  else if num_parts = 0 then
    none
  else
    let length := (end_ + UINT_SIZE - start + 1) % UINT_SIZE
    let part_length_short := length / num_parts
    let part_length_long := ceilDiv length num_parts
    let cut_pos := length % num_parts
    -- Add long ranges
    match pushWhileLt fuel start ((start + cut_pos * part_length_long) % UINT_SIZE)
        part_length_long result with
    | none => none
    | some result1 =>
      -- Add short ranges
      pushWhileLe fuel ((start + cut_pos * part_length_long) % UINT_SIZE)
        ((end_ + 1) % UINT_SIZE) part_length_short result1

/-- The half-open sub-ranges `[b_i, b_{i+1})` of a boundary list, in order. -/
def subRanges : List Nat → List (List Nat)
  | a :: b :: rest => List.range' a (b - a) :: subRanges (b :: rest)
  | _ => []

/-- The lengths `b_{i+1} - b_i` of the parts of a boundary list, in order. -/
def partLengths : List Nat → List Nat
  | a :: b :: rest => (b - a) :: partLengths (b :: rest)
  | _ => []

/-- The boundary list the partition rule describes for a range of `length`
elements from `start` cut into `num_parts` parts: entry `k` is
`start + k * floor(length / num_parts) + min k (length mod num_parts)`. -/
def boundaryList (start length num_parts : Nat) : List Nat :=
  (List.range (num_parts + 1)).map
    (fun k => start + k * (length / num_parts) + min k (length % num_parts))

/-- No `uint` computation of `equalSplit` wraps around: `end + 1` is
representable, and when a loop runs (`num_parts ≠ 1`) so is the counter after
its last increment; the last step is `1` on the path for more parts than
elements and `floor(length / num_parts)` otherwise. -/
def NoWrap (start end_ num_parts : Nat) : Prop :=
  end_ + 1 < UINT_SIZE ∧
    (num_parts ≠ 1 →
      end_ + 1 + max 1 ((end_ - start + 1) / num_parts) < UINT_SIZE)

instance (start end_ num_parts : Nat) : Decidable (NoWrap start end_ num_parts) := by
  unfold NoWrap; infer_instance

/-! ## `mostFrequentValue` -/

/-- The number of values of the C++ type `size_t` (64-bit word). -/
def SIZE_T_SIZE : Nat := 2 ^ 64

/-- The mapping `std::unordered_map<double, size_t>& class_count`: its entries
in the order in which the range-based `for` visits them (an order the
container does not specify), with unique keys, and a size that fits `size_t`.
The function only copies keys, so the key type is left open. -/
structure ClassCountMap (α : Type) where
  entries : List (α × Nat)
  keys_nodup : (entries.map Prod.fst).Nodup
  size_lt : entries.length < SIZE_T_SIZE

/-- A `std::uniform_int_distribution<size_t>` applied to a generator with state
`σ` (`std::mt19937_64` in the source): `draw a b g` is the value of
`unif_dist(g)` for `unif_dist(a, b)` together with the state of `g`
afterwards.  The standard library guarantees a value of the closed interval
`[a, b]`. -/
structure UniformIntDistribution (σ : Type) where
  draw : Nat → Nat → σ → Nat × σ
  draw_mem : ∀ a b g, a ≤ b → a ≤ (draw a b g).1 ∧ (draw a b g).1 ≤ b

/-- The body of the loop of `mostFrequentValue` on the pair
`(max_count, major_classes)`. -/
def scanStep {α : Type} (state : Nat × List α) (class_value : α × Nat) : Nat × List α :=
  if class_value.2 > state.1 then
    (class_value.2, [class_value.1])
  else if class_value.2 = state.1 then
    (state.1, state.2 ++ [class_value.1])
  else
    state

/-- The loop "Find maximum count" of `mostFrequentValue`: the final
`(max_count, major_classes)`. -/
def findMajorClasses {α : Type} (class_count : List (α × Nat)) : Nat × List α :=
  class_count.foldl scanStep (0, [])

/-- The body of `mostFrequentValue`, run on its parameter
`random_number_generator`: the returned value and the final state of that
parameter.  The value is `none` when the index is outside `major_classes`
(undefined behaviour of `operator[]`). -/
def mostFrequentValueBody {α σ : Type} (U : UniformIntDistribution σ)
    (class_count : ClassCountMap α) (random_number_generator : σ) : Option α × σ :=
  let major_classes := (findMajorClasses class_count.entries).2
  if major_classes.length = 1 then
    (major_classes[0]?, random_number_generator)
  else
    -- Choose randomly
    let d := U.draw 0 ((major_classes.length + SIZE_T_SIZE - 1) % SIZE_T_SIZE)
      random_number_generator
    (major_classes[d.1]?, d.2)

/-- The value returned by `mostFrequentValue(class_count, random_number_generator)`. -/
def mostFrequentValue {α σ : Type} (U : UniformIntDistribution σ)
    (class_count : ClassCountMap α) (random_number_generator : σ) : Option α :=
  (mostFrequentValueBody U class_count random_number_generator).1

/-- What a call `mostFrequentValue(class_count, g)` leaves behind. -/
structure CallOutcome (α σ : Type) where
  /-- the returned value -/
  value : Option α
  /-- the state of the parameter `random_number_generator` when the function
  returns (the parameter is destroyed then) -/
  callee_generator : σ
  /-- the state of the generator object `g` of the caller after the call -/
  caller_generator : σ

/-- A call `mostFrequentValue(class_count, g)`.  The parameter is declared
`std::mt19937_64 random_number_generator`, by value: it is copy-initialised
from `g`, the body works on the copy, and `g` itself is not written. -/
def mostFrequentValueCall {α σ : Type} (U : UniformIntDistribution σ)
    (class_count : ClassCountMap α) (g : σ) : CallOutcome α σ :=
  let random_number_generator := g
  let r := mostFrequentValueBody U class_count random_number_generator
  { value := r.1, callee_generator := r.2, caller_generator := g }

/-- The keys whose count is the maximum count of the mapping, in iteration
order: the values that tie for the maximum. -/
def tiedKeys {α : Type} (class_count : List (α × Nat)) : List α :=
  (class_count.filter (fun p => decide (∀ q ∈ class_count, q.2 ≤ p.2))).map Prod.fst

/-- A generator whose state counts the draws, with the distribution that maps
the state into `[a, b]`; used for concrete runs. -/
def countingDistribution : UniformIntDistribution Nat where
  draw := fun a b g => (a + g % (b - a + 1), g + 1)
  draw_mem := by
    intro a b g hab
    have := Nat.mod_lt g (Nat.add_one_pos (b - a))
    constructor
    · exact Nat.le_add_right _ _
    · show a + g % (b - a + 1) ≤ b
      omega

/-- The class counts `{A:3, B:5, C:1}`. -/
def countsABC : ClassCountMap Char where
  entries := [('A', 3), ('B', 5), ('C', 1)]
  keys_nodup := by decide
  size_lt := by decide

/-- The class counts `{A:5, B:5}`. -/
def countsAB : ClassCountMap Char where
  entries := [('A', 5), ('B', 5)]
  keys_nodup := by decide
  size_lt := by decide

/-- The class counts `{A:0, B:0}`. -/
def countsZero : ClassCountMap Char where
  entries := [('A', 0), ('B', 0)]
  keys_nodup := by decide
  size_lt := by decide

/-- The class counts `{A:3, B:5, C:1}` visited in another order. -/
def countsCAB : ClassCountMap Char where
  entries := [('C', 1), ('A', 3), ('B', 5)]
  keys_nodup := by decide
  size_lt := by decide

/-! ## `computeConcordanceIndex` -/

/-- The operations of the class `Data` that the functions call, for one data
set: `getNumRows()`, `get(row, col)` and `getVariableID(name)`, which throws
when no variable has the name (`none`). -/
structure Data where
  getNumRows : Nat
  get : Nat → Nat → ℚ
  getVariableID : String → Option Nat

/-- The statements `size_t sample_i = i; if (!sample_IDs.empty()) sample_i =
sample_IDs[i];`.  The value is `none` when `sample_IDs` is not empty and has no
position `i` (undefined behaviour of `operator[]`). -/
def sampleOf (sample_IDs : List Nat) (i : Nat) : Option Nat :=
  if sample_IDs.isEmpty then some i else sample_IDs[i]?

/-- The body of the inner loop of `computeConcordanceIndex` once the values of
the pair are read, on the accumulators `(concordance, permissible)`. -/
def pairUpdate (time_i status_i time_j status_j chf_i chf_j : ℚ) (acc : ℚ × ℚ) : ℚ × ℚ :=
  if time_i < time_j ∧ status_i = 0 then
    acc
  else if time_j < time_i ∧ status_j = 0 then
    acc
  else if time_i = time_j ∧ status_i = status_j then
    acc
  else
    let permissible := acc.2 + 1
    if time_i < time_j ∧ chf_i > chf_j then
      (acc.1 + 1, permissible)
    else if time_j < time_i ∧ chf_j > chf_i then
      (acc.1 + 1, permissible)
    else if chf_i = chf_j then
      (acc.1 + 1 / 2, permissible)
    else
      (acc.1, permissible)

/-- One iteration of the inner loop `for (size_t j = i + 1; …)`. -/
def innerStep (data : Data) (sum_chf : List ℚ) (dependent_varID status_varID : Nat)
    (sample_IDs : List Nat) (i : Nat) (time_i status_i : ℚ) (acc : ℚ × ℚ) (j : Nat) :
    Option (ℚ × ℚ) := do
  let sample_j ← sampleOf sample_IDs j
  let time_j := data.get sample_j dependent_varID
  let status_j := data.get sample_j status_varID
  let chf_i ← sum_chf[i]?
  let chf_j ← sum_chf[j]?
  pure (pairUpdate time_i status_i time_j status_j chf_i chf_j acc)

/-- One iteration of the outer loop `for (size_t i = 0; …)`. -/
def outerStep (data : Data) (sum_chf : List ℚ) (dependent_varID status_varID : Nat)
    (sample_IDs : List Nat) (acc : ℚ × ℚ) (i : Nat) : Option (ℚ × ℚ) := do
  let sample_i ← sampleOf sample_IDs i
  let time_i := data.get sample_i dependent_varID
  let status_i := data.get sample_i status_varID
  (List.range' (i + 1) (sum_chf.length - (i + 1))).foldlM
    (innerStep data sum_chf dependent_varID status_varID sample_IDs i time_i status_i) acc

/-- The accumulators `(concordance, permissible)` when the loops of
`computeConcordanceIndex` are left. -/
def concordanceSums (data : Data) (sum_chf : List ℚ) (dependent_varID status_varID : Nat)
    (sample_IDs : List Nat) : Option (ℚ × ℚ) :=
  (List.range sum_chf.length).foldlM
    (outerStep data sum_chf dependent_varID status_varID sample_IDs) (0, 0)

/-- The value of a `double` division `x / y` of two finite operands: NaN for
`0 / 0`, an infinity for a division of a nonzero value by zero, and otherwise
the quotient (which the hardware rounds to the nearest `double`; the rounding
is not modelled). -/
inductive DoubleQuotient where
  | nan : DoubleQuotient
  | infinite : DoubleQuotient
  | finite (q : ℚ) : DoubleQuotient
  deriving DecidableEq

/-- The expression `x / y` on `double`. -/
def divDouble (x y : ℚ) : DoubleQuotient :=
  if y = 0 then (if x = 0 then DoubleQuotient.nan else DoubleQuotient.infinite)
  else DoubleQuotient.finite (x / y)

/-- The function `computeConcordanceIndex(data, sum_chf, dependent_varID,
status_varID, sample_IDs)`; `none` when `sample_IDs` is read outside its
bounds. -/
def computeConcordanceIndex (data : Data) (sum_chf : List ℚ)
    (dependent_varID status_varID : Nat) (sample_IDs : List Nat) : Option DoubleQuotient :=
  (concordanceSums data sum_chf dependent_varID status_varID sample_IDs).map
    (fun acc => divDouble acc.1 acc.2)

/-- The data row of local position `i`: `i` itself when the list of sample IDs
is empty, entry `i` of the list otherwise. -/
def localRow (sampleIDs : List Nat) (i : Nat) : Nat :=
  if sampleIDs = [] then i else sampleIDs.getD i 0

/-- The pairs `(i, j)` of local positions with `i < j < n`. -/
def localPairs (n : Nat) : Finset (Nat × Nat) :=
  (Finset.range n ×ˢ Finset.range n).filter (fun p => p.1 < p.2)

/-- A pair is skipped when the sample with the earlier time is censored, or
the times are tied and the statuses agree. -/
def skipped (time_i status_i time_j status_j : ℚ) : Prop :=
  (time_i < time_j ∧ status_i = 0) ∨ (time_j < time_i ∧ status_j = 0) ∨
    (time_i = time_j ∧ status_i = status_j)

instance (time_i status_i time_j status_j : ℚ) :
    Decidable (skipped time_i status_i time_j status_j) := by
  unfold skipped; infer_instance

/-- The credit of a pair that is not skipped: `1` if the sample with the
earlier time has the strictly larger predicted risk, `1/2` if the two
predicted risks are equal, `0` otherwise. -/
def credit (time_i time_j risk_i risk_j : ℚ) : ℚ :=
  if (time_i < time_j ∧ risk_i > risk_j) ∨ (time_j < time_i ∧ risk_j > risk_i) then 1
  else if risk_i = risk_j then 1 / 2
  else 0

/-- The pairs of local positions that are not skipped (the permissible pairs),
for the samples that `sampleIDs` selects from `data`. -/
def permissiblePairs (data : Data) (n dependentColumnID statusColumnID : Nat)
    (sampleIDs : List Nat) : Finset (Nat × Nat) :=
  (localPairs n).filter (fun p =>
    ¬ skipped (data.get (localRow sampleIDs p.1) dependentColumnID)
      (data.get (localRow sampleIDs p.1) statusColumnID)
      (data.get (localRow sampleIDs p.2) dependentColumnID)
      (data.get (localRow sampleIDs p.2) statusColumnID))

/-- The number `P` of permissible pairs. -/
def permissibleCount (data : Data) (predictedRisk : List ℚ)
    (dependentColumnID statusColumnID : Nat) (sampleIDs : List Nat) : Nat :=
  (permissiblePairs data predictedRisk.length dependentColumnID statusColumnID
    sampleIDs).card

/-- The sum `W` of the credits of the permissible pairs. -/
def concordantWeight (data : Data) (predictedRisk : List ℚ)
    (dependentColumnID statusColumnID : Nat) (sampleIDs : List Nat) : ℚ :=
  ∑ p ∈ permissiblePairs data predictedRisk.length dependentColumnID statusColumnID
      sampleIDs,
    credit (data.get (localRow sampleIDs p.1) dependentColumnID)
      (data.get (localRow sampleIDs p.2) dependentColumnID)
      (predictedRisk.getD p.1 0) (predictedRisk.getD p.2 0)

/-- What one pair adds to `(concordance, permissible)`. -/
def pairContribution (time_i status_i time_j status_j risk_i risk_j : ℚ) : ℚ × ℚ :=
  if skipped time_i status_i time_j status_j then (0, 0)
  else (credit time_i time_j risk_i risk_j, 1)

/-- What the pair of local positions `(i, j)` adds to the accumulators. -/
def contributionAt (data : Data) (sum_chf : List ℚ) (dependent_varID status_varID : Nat)
    (sample_IDs : List Nat) (i j : Nat) : ℚ × ℚ :=
  pairContribution (data.get (localRow sample_IDs i) dependent_varID)
    (data.get (localRow sample_IDs i) status_varID)
    (data.get (localRow sample_IDs j) dependent_varID)
    (data.get (localRow sample_IDs j) status_varID)
    (sum_chf.getD i 0) (sum_chf.getD j 0)

/-- The data of the worked example: rows `(time, status)` = `(5, 1)`, `(3, 1)`,
`(3, 0)`, with the time in column `0` and the status in column `1`. -/
def exampleData : Data where
  getNumRows := 3
  get := fun row col =>
    match row, col with
    | 0, 0 => 5
    | 0, 1 => 1
    | 1, 0 => 3
    | 1, 1 => 1
    | 2, 0 => 3
    | 2, 1 => 0
    | _, _ => 0
  getVariableID := fun name =>
    if name = "time" then some 0 else if name = "status" then some 1 else none

/-- The predicted risks `0.2, 0.8, 0.5` of the worked example. -/
def exampleRisk : List ℚ := [2 / 10, 8 / 10, 5 / 10]

/-- A data set of three samples without censoring: the time in column `0` is
the row number and the status in column `1` is `1`. -/
def uncensoredData : Data where
  getNumRows := 3
  get := fun row col => if col = 0 then (row : ℚ) else 1
  getVariableID := fun name =>
    if name = "time" then some 0 else if name = "status" then some 1 else none

/-- The sum of `G x y` over the pairs of entries of a list in which `x` stands
before `y`. -/
def pairSum {β : Type} (G : β → β → ℚ × ℚ) : List β → ℚ × ℚ
  | [] => 0
  | x :: xs => (xs.map (G x)).sum + pairSum G xs

/-- What the pair of the evaluated samples `a` and `b`, each a predicted risk
with a data row, adds to `(concordance, permissible)`. -/
def sampleContribution (data : Data) (dependent_varID status_varID : Nat)
    (a b : ℚ × Nat) : ℚ × ℚ :=
  pairContribution (data.get a.2 dependent_varID) (data.get a.2 status_varID)
    (data.get b.2 dependent_varID) (data.get b.2 status_varID) a.1 b.1

/-! ## `checkUnorderedVariables` and `checkPositiveIntegers` -/

/-- The value of `sizeof(size_t)` on a system with 64-bit words. -/
def sizeof_size_t : Nat := 8

/-- The function `uintToString(number)`, which is `std::to_string(number)`. -/
def uintToString (number : Nat) : String :=
  toString number

/-- The function `checkPositiveIntegers(all_values)`. -/
def checkPositiveIntegers : List ℚ → Bool
  | [] => true
  | value :: rest =>
    if value < 1 ∨ ¬ ((⌊value⌋ : ℚ) = value) then false
    else checkPositiveIntegers rest

/-- Modelled from the spec: `Data::getAllValues(all_values, sampleIDs, varID)`
belongs to the class `Data`, whose source is not among the files; by the
description of the data accessor it yields the distinct values observed in
column `varID` over the rows `sampleIDs`, not one value per row. -/
def Data.getAllValues (data : Data) (sampleIDs : List Nat) (varID : Nat) : List ℚ :=
  (sampleIDs.map (fun row => data.get row varID)).dedup

/-- The loop "Check for all unordered variables" of `checkUnorderedVariables`
with its `return` statements; `none` when `getVariableID` throws. -/
def checkVariablesLoop (data : Data) (sampleIDs : List Nat) : List String → Option String
  | [] => some ""
  | variable_name :: rest =>
    match data.getVariableID variable_name with
    | none => none
    | some varID =>
      let all_values := data.getAllValues sampleIDs varID
      -- Check level count
      let max_level_count := 8 * sizeof_size_t - 1
      if all_values.length > max_level_count then
        some ("Too many levels in unordered categorical variable " ++ variable_name ++
          ". Only " ++ uintToString max_level_count ++ " levels allowed on this system.")
      -- Check positive integers
      else if !checkPositiveIntegers all_values then
        some ("Not all values in unordered categorical variable " ++ variable_name ++
          " are positive integers.")
      else
        checkVariablesLoop data sampleIDs rest

/-- The function `checkUnorderedVariables(data, unordered_variable_names)`: the
returned message, or `none` when `getVariableID` throws. -/
def checkUnorderedVariables (data : Data) (unordered_variable_names : List String) :
    Option String :=
  let num_rows := data.getNumRows
  let sampleIDs := List.range num_rows
  checkVariablesLoop data sampleIDs unordered_variable_names

/-- The set of the distinct values observed in a column over all rows. -/
def observedValues (data : Data) (columnID : Nat) : Finset ℚ :=
  (Finset.range data.getNumRows).image (fun row => data.get row columnID)

/-- A named variable passes both checks: it has a column, at most 63 distinct
observed values, and each of them is at least 1 and has no fractional part. -/
def PassesChecks (data : Data) (name : String) : Prop :=
  ∃ columnID, data.getVariableID name = some columnID ∧
    (observedValues data columnID).card ≤ 63 ∧
    ∀ v ∈ observedValues data columnID, 1 ≤ v ∧ (⌊v⌋ : ℚ) = v

/-- A data set with `n` rows and the single variable `x`, whose value in row
`row` is `row + 1`: the variable has the `n` levels `1, …, n`. -/
def levelData (n : Nat) : Data where
  getNumRows := n
  get := fun row _ => (row : ℚ) + 1
  getVariableID := fun name => if name = "x" then some 0 else none

/-- A data set with `n` rows and the single variable `x`, whose value in row
`row` is `row`: the variable has the `n` levels `0, …, n - 1`. -/
def rowData (n : Nat) : Data where
  getNumRows := n
  get := fun row _ => (row : ℚ)
  getVariableID := fun name => if name = "x" then some 0 else none

/-! ## `roundToNextMultiple` -/

/-- The conversion of an unsigned value to the 32-bit `int`, as in
`int remainder = value % multiple;`: the value is reduced modulo `2 ^ 32` and
residues from `2 ^ 31` on become negative (two's complement). -/
def toInt (x : Nat) : Int :=
  if x % UINT_SIZE < UINT_SIZE / 2 then ((x % UINT_SIZE : Nat) : Int)
  else ((x % UINT_SIZE : Nat) : Int) - (UINT_SIZE : Int)

/-- The function `roundToNextMultiple(value, multiple)` with `size_t value` and
`uint multiple`.  The sum `value + multiple - remainder` is evaluated in
`size_t`: `remainder` is converted to `size_t` and the result is reduced modulo
`2 ^ 64`. -/
def roundToNextMultiple (value multiple : Nat) : Nat :=
  if multiple = 0 then
    value
  else
    let remainder : Int := toInt (value % multiple)
    if remainder = 0 then
      value
    else
      (((((value + multiple) % SIZE_T_SIZE : Nat) : Int) - remainder) %
        (SIZE_T_SIZE : Int)).toNat

/-! ## `computeConcordanceIndex` on `double` values with NaN and infinities -/

/-- A value of the C++ type `double`: NaN, an infinity, or a finite value,
which is a rational number. -/
inductive Double where
  | nan : Double
  | negInf : Double
  | finite (q : ℚ) : Double
  | posInf : Double
  deriving DecidableEq

/-- The comparison `a < b` of two `double` values; it is false when one of them
is NaN. -/
def Double.lt : Double → Double → Bool
  | Double.nan, _ => false
  | _, Double.nan => false
  | Double.negInf, Double.negInf => false
  | Double.negInf, _ => true
  | Double.finite _, Double.negInf => false
  | Double.finite a, Double.finite b => decide (a < b)
  | Double.finite _, Double.posInf => true
  | Double.posInf, _ => false

/-- The comparison `a == b` of two `double` values; it is false when one of
them is NaN. -/
def Double.eq : Double → Double → Bool
  | Double.nan, _ => false
  | _, Double.nan => false
  | Double.negInf, Double.negInf => true
  | Double.finite a, Double.finite b => decide (a = b)
  | Double.posInf, Double.posInf => true
  | _, _ => false

/-- The method `get(row, col)` of the class `Data`, for data whose entries can
be any `double`. -/
structure DoubleData where
  get : Nat → Nat → Double

/-- The body of the inner loop of `computeConcordanceIndex` once the values of
the pair are read, with the comparisons of `double`, on the accumulators
`(concordance, permissible)`; these are sums of the terms `1` and `0.5`. -/
def Ieee.pairUpdate (time_i status_i time_j status_j chf_i chf_j : Double) (acc : ℚ × ℚ) :
    ℚ × ℚ :=
  if time_i.lt time_j && status_i.eq (Double.finite 0) then
    acc
  else if time_j.lt time_i && status_j.eq (Double.finite 0) then
    acc
  else if time_i.eq time_j && status_i.eq status_j then
    acc
  else
    let permissible := acc.2 + 1
    if time_i.lt time_j && chf_j.lt chf_i then
      (acc.1 + 1, permissible)
    else if time_j.lt time_i && chf_i.lt chf_j then
      (acc.1 + 1, permissible)
    else if chf_i.eq chf_j then
      (acc.1 + 1 / 2, permissible)
    else
      (acc.1, permissible)

/-- One iteration of the inner loop `for (size_t j = i + 1; …)`, on `double`
data. -/
def Ieee.innerStep (data : DoubleData) (sum_chf : List Double)
    (dependent_varID status_varID : Nat) (sample_IDs : List Nat) (i : Nat)
    (time_i status_i : Double) (acc : ℚ × ℚ) (j : Nat) : Option (ℚ × ℚ) := do
  let sample_j ← sampleOf sample_IDs j
  let time_j := data.get sample_j dependent_varID
  let status_j := data.get sample_j status_varID
  let chf_i ← sum_chf[i]?
  let chf_j ← sum_chf[j]?
  pure (Ieee.pairUpdate time_i status_i time_j status_j chf_i chf_j acc)

/-- One iteration of the outer loop `for (size_t i = 0; …)`, on `double` data. -/
def Ieee.outerStep (data : DoubleData) (sum_chf : List Double)
    (dependent_varID status_varID : Nat) (sample_IDs : List Nat) (acc : ℚ × ℚ) (i : Nat) :
    Option (ℚ × ℚ) := do
  let sample_i ← sampleOf sample_IDs i
  let time_i := data.get sample_i dependent_varID
  let status_i := data.get sample_i status_varID
  (List.range' (i + 1) (sum_chf.length - (i + 1))).foldlM
    (Ieee.innerStep data sum_chf dependent_varID status_varID sample_IDs i time_i status_i) acc

/-- The accumulators `(concordance, permissible)` when the loops of
`computeConcordanceIndex` are left, on `double` data. -/
def Ieee.concordanceSums (data : DoubleData) (sum_chf : List Double)
    (dependent_varID status_varID : Nat) (sample_IDs : List Nat) : Option (ℚ × ℚ) :=
  (List.range sum_chf.length).foldlM
    (Ieee.outerStep data sum_chf dependent_varID status_varID sample_IDs) (0, 0)

/-- The function `computeConcordanceIndex` on `double` data: times, statuses
and predicted risks may be NaN or infinite. -/
def Ieee.computeConcordanceIndex (data : DoubleData) (sum_chf : List Double)
    (dependent_varID status_varID : Nat) (sample_IDs : List Nat) : Option DoubleQuotient :=
  (Ieee.concordanceSums data sum_chf dependent_varID status_varID sample_IDs).map
    (fun acc => divDouble acc.1 acc.2)

/-- Data with finite entries, as `double` data. -/
def Data.toDouble (data : Data) : DoubleData where
  get := fun row col => Double.finite (data.get row col)

/-- The skip rule on `double` values: the sample with the earlier time is
censored, or the times are equal and the statuses are equal. -/
def Ieee.skipped (time_i status_i time_j status_j : Double) : Bool :=
  (time_i.lt time_j && status_i.eq (Double.finite 0)) ||
    (time_j.lt time_i && status_j.eq (Double.finite 0)) ||
    (time_i.eq time_j && status_i.eq status_j)

/-- Two censored samples, the first with a NaN time: rows `(time, status)` =
`(NaN, 0)`, `(1, 0)`, with the time in column `0` and the status in column
`1`. -/
def nanTimeData : DoubleData where
  get := fun row col =>
    match row, col with
    | 0, 0 => Double.nan
    | 1, 0 => Double.finite 1
    | _, _ => Double.finite 0

/-- Three censored samples with the times `-inf`, `1`, `1`: rows
`(time, status)` = `(-inf, 0)`, `(1, 0)`, `(1, 0)`. -/
def censoredData : DoubleData where
  get := fun row col =>
    match row, col with
    | 0, 0 => Double.negInf
    | 1, 0 => Double.finite 1
    | 2, 0 => Double.finite 1
    | _, _ => Double.finite 0

/-! ## Loops of `equalSplit` -/

theorem pushWhileLt_progression (c : Nat) : ∀ (i step fuel : Nat) (acc : List Nat),
    0 < step → i + c * step < UINT_SIZE → c + 1 ≤ fuel →
    pushWhileLt fuel i (i + c * step) step acc = some (acc ++ List.range' i c step) := by
  induction c with
  | zero =>
    intro i step fuel acc _ _ hf
    obtain ⟨f, rfl⟩ : ∃ f, fuel = f + 1 := ⟨fuel - 1, by omega⟩
    simp [pushWhileLt]
  | succ c ih =>
    intro i step fuel acc hs hb hf
    obtain ⟨f, rfl⟩ : ∃ f, fuel = f + 1 := ⟨fuel - 1, by omega⟩
    have hmul : (c + 1) * step = c * step + step := Nat.succ_mul c step
    have hlt : i < i + (c + 1) * step := by rw [hmul]; omega
    have hle : i + step ≤ i + (c + 1) * step := by rw [hmul]; omega
    have hmod : (i + step) % UINT_SIZE = i + step := Nat.mod_eq_of_lt (by omega)
    have hbd : i + (c + 1) * step = (i + step) + c * step := by rw [hmul]; omega
    rw [pushWhileLt, if_pos hlt, hmod, hbd,
      ih (i + step) step f (acc ++ [i]) hs (by rw [← hbd]; exact hb) (by omega)]
    simp [List.range'_succ]

theorem pushWhileLe_progression (m : Nat) : ∀ (i step fuel : Nat) (acc : List Nat),
    0 < step → i + m * step + step < UINT_SIZE → m + 2 ≤ fuel →
    pushWhileLe fuel i (i + m * step) step acc =
      some (acc ++ List.range' i (m + 1) step) := by
  induction m with
  | zero =>
    intro i step fuel acc hs hb hf
    obtain ⟨f, rfl⟩ : ∃ f, fuel = f + 2 := ⟨fuel - 2, by omega⟩
    have hmod : (i + step) % UINT_SIZE = i + step := Nat.mod_eq_of_lt (by omega)
    have hnot : ¬ (i + step ≤ i) := by omega
    simp [pushWhileLe, hmod, hnot, List.range'_succ]
  | succ m ih =>
    intro i step fuel acc hs hb hf
    obtain ⟨f, rfl⟩ : ∃ f, fuel = f + 1 := ⟨fuel - 1, by omega⟩
    have hmul : (m + 1) * step = m * step + step := Nat.succ_mul m step
    have hle : i ≤ i + (m + 1) * step := Nat.le_add_right _ _
    have hmod : (i + step) % UINT_SIZE = i + step := Nat.mod_eq_of_lt (by omega)
    have hbd : i + (m + 1) * step = (i + step) + m * step := by rw [hmul]; omega
    rw [pushWhileLe, if_pos hle, hmod, hbd,
      ih (i + step) step f (acc ++ [i]) hs (by rw [← hbd]; exact hb) (by omega)]
    simp [List.range'_succ]

/-! ## Arithmetic of the part lengths -/

theorem ceilDiv_of_mod_eq_zero (L n : Nat) (hn : 0 < n) (h0 : L % n = 0) :
    ceilDiv L n = L / n := by
  unfold ceilDiv
  have h := Nat.div_add_mod L n
  rw [h0] at h
  generalize L / n = q at *
  have h2 : L + n - 1 = n * q + (n - 1) := by omega
  rw [h2, Nat.mul_add_div hn, Nat.div_eq_of_lt (by omega)]
  rfl

theorem ceilDiv_of_mod_ne_zero (L n : Nat) (hn : 0 < n) (h0 : L % n ≠ 0) :
    ceilDiv L n = L / n + 1 := by
  unfold ceilDiv
  have h := Nat.div_add_mod L n
  have hlt := Nat.mod_lt L hn
  generalize L / n = q at *
  generalize L % n = r at *
  have h2 : L + n - 1 = n * (q + 1) + (r - 1) := by
    rw [Nat.mul_add]; omega
  rw [h2, Nat.mul_add_div hn, Nat.div_eq_of_lt (by omega)]

theorem progressions_eq_map (start s lg c n : Nat) (hc : c ≤ n)
    (hlg : c = 0 ∨ lg = s + 1) :
    List.range' start c lg ++ List.range' (start + c * lg) (n - c + 1) s =
      (List.range (n + 1)).map (fun k => start + k * s + min k c) := by
  apply List.ext_getElem
  · simp; omega
  · intro k h1 h2
    simp only [List.getElem_map, List.getElem_range]
    by_cases hk : k < c
    · rw [List.getElem_append_left (by simpa using hk), List.getElem_range']
      have hlg' : lg = s + 1 := by omega
      subst hlg'
      rw [Nat.min_eq_left (Nat.le_of_lt hk), Nat.add_mul, Nat.mul_comm s k]
      omega
    · have hk' : c ≤ k := Nat.le_of_not_lt hk
      rw [List.getElem_append_right (by simpa using hk'), List.getElem_range']
      simp only [List.length_range']
      obtain ⟨d, rfl⟩ : ∃ d, k = c + d := ⟨k - c, by omega⟩
      rw [Nat.min_eq_right (Nat.le_add_right c d), Nat.add_sub_cancel_left, Nat.add_mul,
        Nat.mul_comm s d]
      rcases hlg with h0 | h1
      · subst h0; simp
      · subst h1; rw [Nat.mul_add]; omega

/-- The `uint` expression `end - start + 1` is the mathematical length when
`end + 1` is representable. -/
theorem length_mod (start end_ : Nat) (h1 : start ≤ end_) (h2 : end_ + 1 < UINT_SIZE) :
    (end_ + UINT_SIZE - start + 1) % UINT_SIZE = end_ - start + 1 := by
  have h : end_ + UINT_SIZE - start + 1 = (end_ - start + 1) + UINT_SIZE := by omega
  rw [h, Nat.add_mod_right, Nat.mod_eq_of_lt (by omega)]

/-- Closed form of the result on the balanced path (`2 ≤ num_parts ≤ length`),
when the counter of the last loop does not wrap around. -/
theorem equalSplit_balanced (start end_ num_parts fuel : Nat) (h1 : start ≤ end_)
    (h2 : 2 ≤ num_parts) (h3 : num_parts ≤ end_ - start + 1)
    (h4 : end_ + 1 + (end_ - start + 1) / num_parts < UINT_SIZE)
    (hf : num_parts + 2 ≤ fuel) :
    equalSplit fuel [] start end_ num_parts =
      some (boundaryList start (end_ - start + 1) num_parts) := by
  have hn : 0 < num_parts := by omega
  have he : end_ + 1 < UINT_SIZE := Nat.lt_of_le_of_lt (Nat.le_add_right _ _) h4
  have hL := length_mod start end_ h1 he
  unfold equalSplit boundaryList
  rw [if_neg (by omega), hL, if_neg (by omega), if_neg (by omega)]
  simp only []
  have hdm := Nat.div_add_mod (end_ - start + 1) num_parts
  have hlt := Nat.mod_lt (end_ - start + 1) hn
  have hs : 0 < (end_ - start + 1) / num_parts := Nat.div_pos h3 hn
  have hlg : (end_ - start + 1) % num_parts = 0 ∨
      ceilDiv (end_ - start + 1) num_parts = (end_ - start + 1) / num_parts + 1 := by
    by_cases h0 : (end_ - start + 1) % num_parts = 0
    · exact Or.inl h0
    · exact Or.inr (ceilDiv_of_mod_ne_zero _ _ hn h0)
  have hlgpos : 0 < ceilDiv (end_ - start + 1) num_parts := by
    by_cases h0 : (end_ - start + 1) % num_parts = 0
    · rw [ceilDiv_of_mod_eq_zero _ _ hn h0]; exact hs
    · rw [ceilDiv_of_mod_ne_zero _ _ hn h0]; omega
  rw [← progressions_eq_map start _ (ceilDiv (end_ - start + 1) num_parts) _ num_parts
    (Nat.le_of_lt hlt) hlg]
  generalize ceilDiv (end_ - start + 1) num_parts = lg at *
  generalize (end_ - start + 1) / num_parts = s at *
  generalize (end_ - start + 1) % num_parts = c at *
  -- the long parts and the short parts add up to the length
  have hsum : c * lg + (num_parts - c) * s = end_ - start + 1 := by
    have e1 : (num_parts - c) * s + c * s = num_parts * s := by
      rw [← Nat.add_mul]; congr 1; omega
    rcases hlg with h0 | h1
    · subst h0; simp at *; exact hdm
    · subst h1
      rw [Nat.mul_add, Nat.mul_one]
      rw [Nat.mul_comm num_parts s] at hdm
      rw [Nat.mul_comm num_parts s] at e1
      omega
  have hcl : start + c * lg + (num_parts - c) * s = end_ + 1 := by omega
  have hmod1 : (start + c * lg) % UINT_SIZE = start + c * lg :=
    Nat.mod_eq_of_lt (by omega)
  have hmod2 : (end_ + 1) % UINT_SIZE = end_ + 1 := Nat.mod_eq_of_lt (by omega)
  rw [hmod1, hmod2, pushWhileLt_progression c start lg fuel [] hlgpos (by omega) (by omega)]
  simp only [List.nil_append]
  rw [← hcl, pushWhileLe_progression (num_parts - c) (start + c * lg) s fuel _ hs
    (by omega) (by omega)]

/-- With one part the result is `[start, end + 1]`, for every fuel. -/
theorem equalSplit_single (start end_ fuel : Nat) (h2 : end_ + 1 < UINT_SIZE) :
    equalSplit fuel [] start end_ 1 = some [start, end_ + 1] := by
  simp [equalSplit, Nat.mod_eq_of_lt h2]

/-- Closed form of the result on the path for more parts than elements, when
the counter of the loop does not wrap around. -/
theorem equalSplit_unit (start end_ num_parts fuel : Nat) (h1 : start ≤ end_)
    (h2 : end_ + 2 < UINT_SIZE) (h3 : num_parts > end_ - start + 1)
    (hf : end_ - start + 3 ≤ fuel) :
    equalSplit fuel [] start end_ num_parts =
      some (List.range' start (end_ - start + 2)) := by
  have hL := length_mod start end_ h1 (by omega)
  have hmod : (end_ + 1) % UINT_SIZE = end_ + 1 := Nat.mod_eq_of_lt (by omega)
  have hb : end_ + 1 = start + (end_ - start + 1) * 1 := by omega
  unfold equalSplit
  rw [if_neg (by omega), hL, if_pos h3, hmod, hb,
    pushWhileLe_progression (end_ - start + 1) start 1 fuel [] Nat.one_pos (by omega)
      (by omega)]
  simp

/-! ## Properties of boundary lists -/

theorem boundaryList_length (start L n : Nat) : (boundaryList start L n).length = n + 1 := by
  simp [boundaryList]

theorem boundaryList_getElem (start L n k : Nat) (h : k < (boundaryList start L n).length) :
    (boundaryList start L n)[k] = start + k * (L / n) + min k (L % n) := by
  simp [boundaryList]

theorem boundaryList_pairwise (start L n : Nat) (hs : 0 < L / n) :
    (boundaryList start L n).Pairwise (· < ·) := by
  unfold boundaryList
  refine List.Pairwise.map _ ?_ (List.pairwise_lt_range (n + 1))
  intro a b hab
  have h1 : (a + 1) * (L / n) ≤ b * (L / n) := Nat.mul_le_mul_right _ hab
  have h2 : min a (L % n) ≤ min b (L % n) := min_le_min_right _ (Nat.le_of_lt hab)
  rw [Nat.add_mul, Nat.one_mul] at h1
  show start + a * (L / n) + min a (L % n) < start + b * (L / n) + min b (L % n)
  omega

theorem boundaryList_head? (start L n : Nat) : (boundaryList start L n).head? = some start := by
  simp [boundaryList, List.head?_range]

theorem boundaryList_getLast? (start L n : Nat) (hn : 0 < n) :
    (boundaryList start L n).getLast? = some (start + L) := by
  have hlt := Nat.mod_lt L hn
  have hdm := Nat.div_add_mod L n
  simp only [boundaryList, List.getLast?_map, List.getLast?_range]
  simp only [Nat.add_one_ne_zero, if_false, Nat.add_sub_cancel, Option.map_some']
  rw [Nat.min_eq_right (Nat.le_of_lt hlt)]
  congr 1
  omega

/-- The sub-ranges of a strictly increasing boundary list are non-empty and
concatenate to the range from the first boundary up to the last one. -/
theorem subRanges_cover : ∀ (bs : List Nat), bs.Pairwise (· < ·) → ∀ a z : Nat,
    bs.head? = some a → bs.getLast? = some z →
    (subRanges bs).flatten = List.range' a (z - a) ∧ ∀ r ∈ subRanges bs, r ≠ []
  | [], _, a, z, ha, _ => by simp at ha
  | [x], _, a, z, ha, hz => by
    simp at ha hz
    subst ha; subst hz
    simp [subRanges]
  | x :: y :: rest, hp, a, z, ha, hz => by
    simp at ha
    subst ha
    rw [List.getLast?_cons_cons] at hz
    have hp' := (List.pairwise_cons.1 hp)
    have hxy : x < y := hp'.1 y (List.mem_cons_self _ _)
    have hzmem : z ∈ y :: rest := List.mem_of_mem_getLast? hz
    have hyz : y ≤ z := by
      rcases List.mem_cons.1 hzmem with h | h
      · exact Nat.le_of_eq h.symm
      · exact Nat.le_of_lt ((List.pairwise_cons.1 hp'.2).1 z h)
    obtain ⟨ih1, ih2⟩ := subRanges_cover (y :: rest) hp'.2 y z rfl hz
    constructor
    · rw [subRanges, List.flatten_cons, ih1]
      have e := List.range'_append x (y - x) (z - y) 1
      rw [Nat.one_mul, Nat.add_sub_cancel' (Nat.le_of_lt hxy)] at e
      rw [e]
      congr 1
      omega
    · intro r hr
      rw [subRanges, List.mem_cons] at hr
      rcases hr with h | h
      · subst h
        intro hnil
        have := congrArg List.length hnil
        simp at this
        omega
      · exact ih2 r h

/-! ## Wrap-around of the loop counter -/

/-- A loop `i <= bound` whose bound is the largest `uint` is never left. -/
theorem pushWhileLe_never (bound step : Nat) (hb : bound + 1 = UINT_SIZE) :
    ∀ (fuel i : Nat) (acc : List Nat), i < UINT_SIZE →
      pushWhileLe fuel i bound step acc = none
  | 0, _, _, _ => rfl
  | fuel + 1, i, acc, hi => by
    have hpos : 0 < UINT_SIZE := by omega
    rw [pushWhileLe, if_pos (by omega)]
    exact pushWhileLe_never bound step hb fuel _ _ (Nat.mod_lt _ hpos)

/-- The loop only appends to `result`. -/
theorem pushWhileLe_length_le (bound step : Nat) :
    ∀ (fuel i : Nat) (acc r : List Nat),
      pushWhileLe fuel i bound step acc = some r → acc.length ≤ r.length
  | 0, _, _, _, h => by simp [pushWhileLe] at h
  | fuel + 1, i, acc, r, h => by
    rw [pushWhileLe] at h
    split at h
    · have := pushWhileLe_length_le bound step fuel _ _ _ h
      simp at this
      omega
    · simp at h
      subst h
      exact Nat.le_refl _

/-- The loop keeps what `result` holds when it starts. -/
theorem pushWhileLe_prefix (bound step : Nat) :
    ∀ (fuel i : Nat) (acc r : List Nat),
      pushWhileLe fuel i bound step acc = some r → ∃ t, r = acc ++ t
  | 0, _, _, _, h => by simp [pushWhileLe] at h
  | fuel + 1, i, acc, r, h => by
    rw [pushWhileLe] at h
    split at h
    · obtain ⟨t, ht⟩ := pushWhileLe_prefix bound step fuel _ _ _ h
      exact ⟨i :: t, by rw [ht]; simp⟩
    · simp at h
      subst h
      exact ⟨[], by simp⟩

/-! ## Claims about `equalSplit` -/

/-- C1, counterexample: `equalSplit(0, 4294967293, 2)` has `end + 1`
representable, yet no run returns a list of `num_parts + 1 = 3` boundaries:
after `end + 1` is pushed the counter wraps around to `2147483645`, which is
pushed as a fourth entry. -/
theorem equalSplit_wrap_counterexample :
    ¬ ∃ fuel bs, equalSplit fuel [] 0 4294967293 2 = some bs ∧ bs.length = 3 := by
  rintro ⟨fuel, bs, h, hlen⟩
  rcases fuel with _ | _ | _ | _ | _ | fuel
  all_goals
    simp [equalSplit, UINT_SIZE, ceilDiv, pushWhileLt, pushWhileLe] at h
  have := pushWhileLe_length_le _ _ _ _ _ _ h
  simp at this
  omega

/-- The result for `1 ≤ num_parts ≤ length` is the boundary list of the
partition rule, when no counter wraps around. -/
theorem equalSplit_eq_boundaryList (start end_ num_parts fuel : Nat) (h1 : start ≤ end_)
    (h2 : end_ + 1 < UINT_SIZE) (h3 : 1 ≤ num_parts) (h4 : num_parts ≤ end_ - start + 1)
    (h5 : num_parts = 1 ∨ end_ + 1 + (end_ - start + 1) / num_parts < UINT_SIZE)
    (hf : num_parts + 2 ≤ fuel) :
    equalSplit fuel [] start end_ num_parts =
      some (boundaryList start (end_ - start + 1) num_parts) := by
  by_cases hone : num_parts = 1
  · subst hone
    rw [equalSplit_single start end_ fuel h2]
    simp [boundaryList, List.range_succ]
    omega
  · exact equalSplit_balanced start end_ num_parts fuel h1 (by omega) h4
      (by rcases h5 with h | h; exact absurd h hone; exact h) hf

/-- C1 (amended): for `start ≤ end`, `end + 1` representable and
`1 ≤ num_parts ≤ end - start + 1`, provided that for `num_parts ≥ 2` the loop
counter after its last increment, `end + 1 + floor(length / num_parts)`, is
representable as well, `equalSplit` on an empty vector returns `num_parts + 1`
boundaries that are strictly increasing, start at `start` and end at `end + 1`;
for one part the result is `[start, end + 1]`, and
`equalSplit(0, 9, 3) = [0, 4, 7, 10]`. -/
theorem equalSplit_boundaries (start end_ num_parts : Nat) (h1 : start ≤ end_)
    (h2 : end_ + 1 < UINT_SIZE) (h3 : 1 ≤ num_parts) (h4 : num_parts ≤ end_ - start + 1)
    (h5 : num_parts = 1 ∨ end_ + 1 + (end_ - start + 1) / num_parts < UINT_SIZE) :
    (∃ bs : List Nat,
      (∀ fuel, num_parts + 2 ≤ fuel → equalSplit fuel [] start end_ num_parts = some bs) ∧
      bs.length = num_parts + 1 ∧ bs.Pairwise (· < ·) ∧
      bs.head? = some start ∧ bs.getLast? = some (end_ + 1)) ∧
    (∀ fuel, equalSplit fuel [] start end_ 1 = some [start, end_ + 1]) ∧
    (∀ fuel, 5 ≤ fuel → equalSplit fuel [] 0 9 3 = some [0, 4, 7, 10]) := by
  refine ⟨⟨boundaryList start (end_ - start + 1) num_parts, ?_, ?_, ?_, ?_, ?_⟩, ?_, ?_⟩
  · intro fuel hf
    exact equalSplit_eq_boundaryList start end_ num_parts fuel h1 h2 h3 h4 h5 hf
  · exact boundaryList_length _ _ _
  · exact boundaryList_pairwise _ _ _ (Nat.div_pos h4 h3)
  · exact boundaryList_head? _ _ _
  · rw [boundaryList_getLast? _ _ _ h3]
    congr 1
    omega
  · intro fuel
    exact equalSplit_single start end_ fuel h2
  · intro fuel hf
    rw [equalSplit_balanced 0 9 3 fuel (by decide) (by decide) (by decide) (by decide) hf]
    decide

/-- C1, instance: the partition of `[0, 9]` into 3 parts. -/
theorem equalSplit_boundaries_witness :
    (0 ≤ 9 ∧ 9 + 1 < UINT_SIZE ∧ 1 ≤ 3 ∧ 3 ≤ 9 - 0 + 1 ∧
      (3 = 1 ∨ 9 + 1 + (9 - 0 + 1) / 3 < UINT_SIZE)) ∧
    ∃ bs : List Nat, equalSplit 5 [] 0 9 3 = some bs ∧ bs.length = 3 + 1 ∧
      bs.Pairwise (· < ·) ∧ bs.head? = some 0 ∧ bs.getLast? = some (9 + 1) :=
  ⟨by decide,
    match (equalSplit_boundaries 0 9 3 (by decide) (by decide) (by decide) (by decide)
      (by decide)).1 with
    | ⟨bs, hrun, hlen, hsorted, hhead, hlast⟩ =>
      ⟨bs, hrun 5 (by decide), hlen, hsorted, hhead, hlast⟩⟩

/-- C2, counterexample: `equalSplit(0, 4294967295, 1)` returns `[0, 0]`, since
`end + 1` wraps around to `0`; its only sub-range `[0, 0)` is empty and the
sub-ranges do not reproduce the indices `0 … 4294967295`. -/
theorem equalSplit_cover_counterexample :
    ∃ bs : List Nat, (∀ fuel, equalSplit fuel [] 0 4294967295 1 = some bs) ∧
      [] ∈ subRanges bs ∧
      (subRanges bs).flatten ≠ List.range' 0 (4294967295 - 0 + 1) := by
  refine ⟨[0, 0], ?_, ?_, ?_⟩
  · intro fuel
    simp [equalSplit, UINT_SIZE]
  · simp [subRanges]
  · intro h
    have hl := congrArg List.length h
    rw [List.length_range'] at hl
    simp [subRanges] at hl

/-- C2 (amended): for `start ≤ end` and `num_parts ≥ 1`, when no `uint`
computation wraps around (`NoWrap`), the sub-ranges `[b_i, b_{i+1})` of the
returned boundary list concatenate to `start, start + 1, …, end` and none of
them is empty. -/
theorem equalSplit_cover (start end_ num_parts : Nat) (h1 : start ≤ end_)
    (h3 : 1 ≤ num_parts) (hw : NoWrap start end_ num_parts) :
    ∃ bs : List Nat,
      (∀ fuel, end_ - start + 3 ≤ fuel →
        equalSplit fuel [] start end_ num_parts = some bs) ∧
      (subRanges bs).flatten = List.range' start (end_ - start + 1) ∧
      ∀ r ∈ subRanges bs, r ≠ [] := by
  obtain ⟨h2, hw2⟩ := hw
  have hlen : end_ + 1 - start = end_ - start + 1 := by omega
  by_cases h4 : num_parts ≤ end_ - start + 1
  · have h5 : num_parts = 1 ∨ end_ + 1 + (end_ - start + 1) / num_parts < UINT_SIZE := by
      by_cases hone : num_parts = 1
      · exact Or.inl hone
      · have := hw2 hone
        rw [max_eq_right (Nat.div_pos h4 h3)] at this
        exact Or.inr this
    have hc := subRanges_cover (boundaryList start (end_ - start + 1) num_parts)
      (boundaryList_pairwise _ _ _ (Nat.div_pos h4 h3)) start (end_ + 1)
      (boundaryList_head? _ _ _)
      (by rw [boundaryList_getLast? _ _ _ h3]; congr 1; omega)
    rw [hlen] at hc
    exact ⟨_, fun fuel hf => equalSplit_eq_boundaryList start end_ num_parts fuel h1 h2 h3
      h4 h5 (by omega), hc⟩
  · have hone : num_parts ≠ 1 := by omega
    have hdiv : (end_ - start + 1) / num_parts = 0 := Nat.div_eq_of_lt (by omega)
    have hw3 := hw2 hone
    rw [hdiv] at hw3
    have hc := subRanges_cover (List.range' start (end_ - start + 2))
      (List.pairwise_lt_range' _ _) start (end_ + 1)
      (by simp [List.head?_range']) (by simp [List.getLast?_range']; omega)
    rw [hlen] at hc
    exact ⟨_, fun fuel hf => equalSplit_unit start end_ num_parts fuel h1
      (by simpa using hw3) (by omega) hf, hc⟩

/-- C2, instance: four parts of `[3, 12]`. -/
theorem equalSplit_cover_witness :
    (3 ≤ 12 ∧ 1 ≤ 4 ∧ NoWrap 3 12 4) ∧
    ∃ bs : List Nat, equalSplit 12 [] 3 12 4 = some bs ∧
      (subRanges bs).flatten = List.range' 3 (12 - 3 + 1) ∧ ∀ r ∈ subRanges bs, r ≠ [] :=
  ⟨by decide,
    match equalSplit_cover 3 12 4 (by decide) (by decide) (by decide) with
    | ⟨bs, hrun, hcat, hne⟩ => ⟨bs, hrun 12 (by decide), hcat, hne⟩⟩

/-- C3, counterexample: `equalSplit(0, 4294967292, 2)` satisfies
`1 ≤ num_parts ≤ end - start + 1`, but the counter wraps around after `end + 1`
is pushed: every returned list starts with `0, 2147483647, 4294967293,
2147483643`, so the first part has length `2147483647` while the third
"part" runs backwards; no run returns a balanced partition. -/
theorem equalSplit_balance_counterexample :
    ¬ ∃ fuel bs, equalSplit fuel [] 0 4294967292 2 = some bs ∧
      ∀ (i j : Nat) (hi : i + 1 < bs.length) (hj : j + 1 < bs.length),
        |((bs[i + 1] : Int) - bs[i]) - ((bs[j + 1] : Int) - bs[j])| ≤ 1 := by
  rintro ⟨fuel, bs, h, hbal⟩
  rcases fuel with _ | _ | _ | _ | fuel
  all_goals
    simp [equalSplit, UINT_SIZE, ceilDiv, pushWhileLt, pushWhileLe] at h
  obtain ⟨t, rfl⟩ := pushWhileLe_prefix _ _ _ _ _ _ h
  have h02 := hbal 0 2 (by simp) (by simp)
  simp only [List.cons_append, List.nil_append, List.getElem_cons_succ,
    List.getElem_cons_zero] at h02
  rw [abs_le] at h02
  omega

/-- C3 (amended): for `start ≤ end`, `end + 1` representable and
`1 ≤ num_parts ≤ end - start + 1`, provided that for `num_parts ≥ 2` the value
`end + 1 + floor(length / num_parts)` is representable as well, any two parts
of the returned partition differ in length by at most 1. -/
theorem equalSplit_balance (start end_ num_parts : Nat) (h1 : start ≤ end_)
    (h2 : end_ + 1 < UINT_SIZE) (h3 : 1 ≤ num_parts) (h4 : num_parts ≤ end_ - start + 1)
    (h5 : num_parts = 1 ∨ end_ + 1 + (end_ - start + 1) / num_parts < UINT_SIZE) :
    ∃ bs : List Nat,
      (∀ fuel, num_parts + 2 ≤ fuel → equalSplit fuel [] start end_ num_parts = some bs) ∧
      ∀ (i j : Nat) (hi : i + 1 < bs.length) (hj : j + 1 < bs.length),
        |((bs[i + 1] : Int) - bs[i]) - ((bs[j + 1] : Int) - bs[j])| ≤ 1 := by
  refine ⟨boundaryList start (end_ - start + 1) num_parts, ?_, ?_⟩
  · intro fuel hf
    exact equalSplit_eq_boundaryList start end_ num_parts fuel h1 h2 h3 h4 h5 hf
  · intro i j hi hj
    simp only [boundaryList_getElem]
    generalize (end_ - start + 1) / num_parts = s
    generalize (end_ - start + 1) % num_parts = c
    rw [abs_le, Nat.add_mul, Nat.add_mul]
    constructor <;> omega

/-- C3, instance: the parts of `[3, 12]` cut in four have lengths 3, 3, 2, 2. -/
theorem equalSplit_balance_witness :
    (3 ≤ 12 ∧ 12 + 1 < UINT_SIZE ∧ 1 ≤ 4 ∧ 4 ≤ 12 - 3 + 1 ∧
      (4 = 1 ∨ 12 + 1 + (12 - 3 + 1) / 4 < UINT_SIZE)) ∧
    ∃ bs : List Nat, equalSplit 6 [] 3 12 4 = some bs ∧
      ∀ (i j : Nat) (hi : i + 1 < bs.length) (hj : j + 1 < bs.length),
        |((bs[i + 1] : Int) - bs[i]) - ((bs[j + 1] : Int) - bs[j])| ≤ 1 :=
  ⟨by decide,
    match equalSplit_balance 3 12 4 (by decide) (by decide) (by decide) (by decide)
      (by decide) with
    | ⟨bs, hrun, hbal⟩ => ⟨bs, hrun 6 (by decide), hbal⟩⟩

/-- C4, counterexample: `equalSplit(4294967294, 4294967294, 2)` asks for more
parts than elements, but the loop `for (i = start; i <= end + 1; ++i)` runs
against the bound `4294967295`, the largest `uint`, and is never left: the
identity sequence is not returned for any fuel. -/
theorem equalSplit_unit_counterexample :
    ¬ ∃ fuel bs, equalSplit fuel [] 4294967294 4294967294 2 = some bs := by
  rintro ⟨fuel, bs, h⟩
  simp only [equalSplit, UINT_SIZE] at h
  norm_num at h
  rw [pushWhileLe_never 4294967295 _ (by decide) fuel _ _ (by decide)] at h
  exact absurd h (by simp)

/-- C4 (amended): for `start ≤ end` with `end + 2` representable and
`num_parts > end - start + 1`, `equalSplit` returns the identity sequence
`start, start + 1, …, end + 1`: `end - start + 2` boundaries, fewer than
`num_parts + 1`, each one the successor of the one before; and
`equalSplit(0, 2, 10) = [0, 1, 2, 3]`. -/
theorem equalSplit_more_parts_than_elements (start end_ num_parts : Nat)
    (h1 : start ≤ end_) (h2 : end_ + 2 < UINT_SIZE) (h3 : num_parts > end_ - start + 1) :
    (∃ bs : List Nat,
      (∀ fuel, end_ - start + 3 ≤ fuel →
        equalSplit fuel [] start end_ num_parts = some bs) ∧
      bs = List.range' start (end_ - start + 2) ∧
      bs.length = end_ - start + 2 ∧ bs.length < num_parts + 1 ∧
      bs.head? = some start ∧ bs.getLast? = some (end_ + 1) ∧
      ∀ (i : Nat) (hi : i + 1 < bs.length), bs[i + 1] = bs[i] + 1) ∧
    (∀ fuel, 5 ≤ fuel → equalSplit fuel [] 0 2 10 = some [0, 1, 2, 3]) := by
  refine ⟨⟨List.range' start (end_ - start + 2), ?_, rfl, ?_, ?_, ?_, ?_, ?_⟩, ?_⟩
  · intro fuel hf
    exact equalSplit_unit start end_ num_parts fuel h1 h2 h3 hf
  · simp
  · simp; omega
  · simp [List.head?_range']
  · simp [List.getLast?_range']; omega
  · intro i hi
    simp only [List.getElem_range']
    omega
  · intro fuel hf
    rw [equalSplit_unit 0 2 10 fuel (by decide) (by decide) (by decide) hf]
    decide

/-- C4, instance: ten parts requested for the three elements of `[0, 2]`. -/
theorem equalSplit_more_parts_than_elements_witness :
    (0 ≤ 2 ∧ 2 + 2 < UINT_SIZE ∧ 10 > 2 - 0 + 1) ∧
    equalSplit 5 [] 0 2 10 = some [0, 1, 2, 3] :=
  ⟨by decide,
    (equalSplit_more_parts_than_elements 0 2 10 (by decide) (by decide) (by decide)).2 5
      (by decide)⟩

/-! ## The scan of `mostFrequentValue` -/

theorem findMajorClasses_append {α : Type} (l : List (α × Nat)) (x : α × Nat) :
    findMajorClasses (l ++ [x]) = scanStep (findMajorClasses l) x := by
  simp [findMajorClasses, List.foldl_append]

/-- Invariant of the scan: `max_count` bounds every count seen, it is `0` or
the count of a key seen, and `major_classes` holds the keys seen with that
count, in iteration order. -/
theorem findMajorClasses_invariant {α : Type} (l : List (α × Nat)) :
    (∀ p ∈ l, p.2 ≤ (findMajorClasses l).1) ∧
    ((findMajorClasses l).1 = 0 ∨ ∃ p ∈ l, p.2 = (findMajorClasses l).1) ∧
    (findMajorClasses l).2 =
      (l.filter (fun p => decide (p.2 = (findMajorClasses l).1))).map Prod.fst := by
  induction l using List.reverseRecOn with
  | nil => simp [findMajorClasses]
  | append_singleton l x ih =>
    obtain ⟨ih1, ih2, ih3⟩ := ih
    rw [findMajorClasses_append]
    generalize findMajorClasses l = st at ih1 ih2 ih3
    obtain ⟨m, ks⟩ := st
    simp only at ih1 ih2 ih3
    unfold scanStep
    by_cases hgt : x.2 > m
    · simp only [hgt, if_true]
      refine ⟨?_, ?_, ?_⟩
      · intro p hp
        rcases List.mem_append.1 hp with h | h
        · exact Nat.le_of_lt (Nat.lt_of_le_of_lt (ih1 p h) hgt)
        · simp at h; subst h; exact Nat.le_refl _
      · exact Or.inr ⟨x, by simp, rfl⟩
      · have hnone : l.filter (fun p => decide (p.2 = x.2)) = [] := by
          rw [List.filter_eq_nil_iff]
          intro p hp
          have := ih1 p hp
          simp
          omega
        simp [List.filter_append, hnone]
    · by_cases heq : x.2 = m
      · rw [if_neg hgt, if_pos heq]
        refine ⟨?_, ?_, ?_⟩
        · intro p hp
          rcases List.mem_append.1 hp with h | h
          · exact ih1 p h
          · simp at h; subst h; exact Nat.le_of_eq heq
        · exact Or.inr ⟨x, by simp, heq⟩
        · simp [List.filter_append, heq, ih3]
      · rw [if_neg hgt, if_neg heq]
        refine ⟨?_, ?_, ?_⟩
        · intro p hp
          rcases List.mem_append.1 hp with h | h
          · exact ih1 p h
          · simp at h; subst h; omega
        · rcases ih2 with h0 | ⟨p, hp, hpm⟩
          · exact Or.inl h0
          · exact Or.inr ⟨p, by simp [hp], hpm⟩
        · simp [List.filter_append, heq, ih3]

/-- For a non-empty mapping `max_count` is the count of one of its keys. -/
theorem findMajorClasses_attained {α : Type} (l : List (α × Nat)) (hl : l ≠ []) :
    ∃ p ∈ l, p.2 = (findMajorClasses l).1 := by
  obtain ⟨h1, h2, _⟩ := findMajorClasses_invariant l
  rcases h2 with h0 | h
  · obtain ⟨p, hp⟩ := List.exists_mem_of_ne_nil l hl
    exact ⟨p, hp, by have := h1 p hp; omega⟩
  · exact h

/-- The list `major_classes` built by the scan is the list of the keys that
tie for the maximum count. -/
theorem findMajorClasses_eq_tiedKeys {α : Type} (l : List (α × Nat)) :
    (findMajorClasses l).2 = tiedKeys l := by
  obtain ⟨h1, _, h3⟩ := findMajorClasses_invariant l
  rw [h3]
  unfold tiedKeys
  congr 1
  apply List.filter_congr
  intro p hp
  by_cases hl : l = []
  · subst hl; simp at hp
  obtain ⟨q, hq, hqm⟩ := findMajorClasses_attained l hl
  rw [decide_eq_decide]
  constructor
  · intro h r hr
    rw [h]
    exact h1 r hr
  · intro h
    have := h q hq
    have := h1 p hp
    omega

/-- A key of `major_classes` is a key of the mapping whose count is maximal. -/
theorem mem_tiedKeys {α : Type} (l : List (α × Nat)) (k : α) (hk : k ∈ tiedKeys l) :
    ∃ c, (k, c) ∈ l ∧ ∀ p ∈ l, p.2 ≤ c := by
  unfold tiedKeys at hk
  rw [List.mem_map] at hk
  obtain ⟨p, hp, rfl⟩ := hk
  rw [List.mem_filter] at hp
  exact ⟨p.2, hp.1, by simpa using hp.2⟩

theorem tiedKeys_ne_nil {α : Type} (l : List (α × Nat)) (hl : l ≠ []) : tiedKeys l ≠ [] := by
  obtain ⟨h1, _, _⟩ := findMajorClasses_invariant l
  obtain ⟨q, hq, hqm⟩ := findMajorClasses_attained l hl
  intro hnil
  have hmem : q.1 ∈ tiedKeys l := by
    unfold tiedKeys
    rw [List.mem_map]
    refine ⟨q, ?_, rfl⟩
    rw [List.mem_filter]
    refine ⟨hq, ?_⟩
    simp only [decide_eq_true_eq]
    intro r hr
    rw [hqm]
    exact h1 r hr
  rw [hnil] at hmem
  simp at hmem

theorem tiedKeys_length_le {α : Type} (l : List (α × Nat)) :
    (tiedKeys l).length ≤ l.length := by
  unfold tiedKeys
  rw [List.length_map]
  exact List.length_filter_le _ _

/-- The body of `mostFrequentValue` in terms of the tied keys. -/
theorem mostFrequentValueBody_eq {α σ : Type} (U : UniformIntDistribution σ)
    (class_count : ClassCountMap α) (g : σ) (hne : class_count.entries ≠ []) :
    mostFrequentValueBody U class_count g =
      if (tiedKeys class_count.entries).length = 1 then
        ((tiedKeys class_count.entries)[0]?, g)
      else
        ((tiedKeys class_count.entries)[(U.draw 0
            ((tiedKeys class_count.entries).length - 1) g).1]?,
          (U.draw 0 ((tiedKeys class_count.entries).length - 1) g).2) := by
  unfold mostFrequentValueBody
  simp only [findMajorClasses_eq_tiedKeys]
  by_cases h1 : (tiedKeys class_count.entries).length = 1
  · simp [h1]
  · rw [if_neg h1, if_neg h1]
    have h0 : (tiedKeys class_count.entries).length ≠ 0 := fun h =>
      tiedKeys_ne_nil _ hne (List.length_eq_zero.1 h)
    · have hlt := Nat.lt_of_le_of_lt (tiedKeys_length_le class_count.entries)
        class_count.size_lt
      have hmod : ((tiedKeys class_count.entries).length + SIZE_T_SIZE - 1) % SIZE_T_SIZE =
          (tiedKeys class_count.entries).length - 1 := by
        have e : (tiedKeys class_count.entries).length + SIZE_T_SIZE - 1 =
            ((tiedKeys class_count.entries).length - 1) + SIZE_T_SIZE := by omega
        rw [e, Nat.add_mod_right, Nat.mod_eq_of_lt (by omega)]
      rw [hmod]

/-- The value returned for a non-empty mapping is one of the tied keys. -/
theorem mostFrequentValue_mem_tiedKeys {α σ : Type} (U : UniformIntDistribution σ)
    (class_count : ClassCountMap α) (g : σ) (hne : class_count.entries ≠ []) :
    ∃ k, mostFrequentValue U class_count g = some k ∧ k ∈ tiedKeys class_count.entries := by
  have hpos : 0 < (tiedKeys class_count.entries).length :=
    List.length_pos.2 (tiedKeys_ne_nil _ hne)
  unfold mostFrequentValue
  rw [mostFrequentValueBody_eq U class_count g hne]
  by_cases h1 : (tiedKeys class_count.entries).length = 1
  · rw [if_pos h1]
    exact ⟨(tiedKeys class_count.entries)[0], by simp [List.getElem?_eq_getElem hpos],
      List.getElem_mem _⟩
  · rw [if_neg h1]
    have hd := (U.draw_mem 0 ((tiedKeys class_count.entries).length - 1) g (Nat.zero_le _)).2
    have hlt : (U.draw 0 ((tiedKeys class_count.entries).length - 1) g).1 <
        (tiedKeys class_count.entries).length := by omega
    exact ⟨(tiedKeys class_count.entries)[(U.draw 0
      ((tiedKeys class_count.entries).length - 1) g).1],
      by simp [List.getElem?_eq_getElem hlt], List.getElem_mem _⟩

/-! ## Claims about `mostFrequentValue` -/

/-- C5: for every non-empty class-count mapping and every generator state,
`mostFrequentValue` returns a key of the mapping whose count no other count
exceeds; counts that are all `0` are included. -/
theorem mostFrequentValue_max {α σ : Type} (U : UniformIntDistribution σ)
    (class_count : ClassCountMap α) (g : σ) (hne : class_count.entries ≠ []) :
    ∃ k c, mostFrequentValue U class_count g = some k ∧ (k, c) ∈ class_count.entries ∧
      ∀ p ∈ class_count.entries, p.2 ≤ c := by
  obtain ⟨k, hk, hmem⟩ := mostFrequentValue_mem_tiedKeys U class_count g hne
  obtain ⟨c, hc, hmax⟩ := mem_tiedKeys _ k hmem
  exact ⟨k, c, hk, hc, hmax⟩

/-- C5, instance: the mapping `{A:0, B:0}`, whose counts are all `0`. -/
theorem mostFrequentValue_max_witness :
    countsZero.entries ≠ [] ∧
    ∃ k c, mostFrequentValue countingDistribution countsZero 7 = some k ∧
      (k, c) ∈ countsZero.entries ∧ ∀ p ∈ countsZero.entries, p.2 ≤ c :=
  ⟨by decide, mostFrequentValue_max countingDistribution countsZero 7 (by decide)⟩

theorem tiedKeys_nodup {α : Type} (class_count : ClassCountMap α) :
    (tiedKeys class_count.entries).Nodup := by
  unfold tiedKeys
  exact List.Nodup.sublist (List.Sublist.map _ (List.filter_sublist _)) class_count.keys_nodup

theorem eq_singleton_of_nodup {α : Type} (k : α) :
    ∀ ks : List α, ks.Nodup → (∀ x ∈ ks, x = k) → ks ≠ [] → ks = [k]
  | [], _, _, hne => absurd rfl hne
  | [a], _, hall, _ => by rw [hall a (by simp)]
  | a :: b :: rest, hnd, hall, _ => by
    have ha := hall a (by simp)
    have hb := hall b (by simp)
    subst ha
    subst hb
    simp at hnd

/-- When one key has a count above all the others, it is the only tied key. -/
theorem tiedKeys_unique {α : Type} (class_count : ClassCountMap α) (k : α) (c : Nat)
    (hk : (k, c) ∈ class_count.entries)
    (hmax : ∀ p ∈ class_count.entries, p.1 ≠ k → p.2 < c) :
    tiedKeys class_count.entries = [k] := by
  apply eq_singleton_of_nodup k _ (tiedKeys_nodup class_count)
  · intro x hx
    obtain ⟨c', hc', hle⟩ := mem_tiedKeys _ x hx
    by_contra hxk
    have h1 := hmax (x, c') hc' hxk
    have h2 := hle (k, c) hk
    simp only at h1 h2
    omega
  · exact tiedKeys_ne_nil _ (List.ne_nil_of_mem hk)

theorem mostFrequentValue_of_unique {α σ : Type} (U : UniformIntDistribution σ)
    (class_count : ClassCountMap α) (g : σ) (k : α) (c : Nat)
    (hk : (k, c) ∈ class_count.entries)
    (hmax : ∀ p ∈ class_count.entries, p.1 ≠ k → p.2 < c) :
    mostFrequentValue U class_count g = some k := by
  unfold mostFrequentValue
  rw [mostFrequentValueBody_eq U class_count g (List.ne_nil_of_mem hk),
    tiedKeys_unique class_count k c hk hmax]
  simp

/-- C6: when exactly one key `k` attains the maximum count (every other key has
a strictly smaller count), `mostFrequentValue` returns `k` for every
distribution and generator state, and also for every mapping with the same
entries visited in another iteration order. -/
theorem mostFrequentValue_deterministic {α σ τ : Type} (class_count other_order : ClassCountMap α)
    (hperm : class_count.entries.Perm other_order.entries) (k : α) (c : Nat)
    (hk : (k, c) ∈ class_count.entries)
    (hmax : ∀ p ∈ class_count.entries, p.1 ≠ k → p.2 < c)
    (U : UniformIntDistribution σ) (g : σ) (V : UniformIntDistribution τ) (g' : τ) :
    mostFrequentValue U class_count g = some k ∧
    mostFrequentValue V class_count g' = some k ∧
    mostFrequentValue V other_order g' = some k :=
  ⟨mostFrequentValue_of_unique U class_count g k c hk hmax,
    mostFrequentValue_of_unique V class_count g' k c hk hmax,
    mostFrequentValue_of_unique V other_order g' k c (hperm.mem_iff.1 hk)
      (fun p hp => hmax p (hperm.mem_iff.2 hp))⟩

/-- C6, instance: the counts `{A:3, B:5, C:1}` give `B`, for two generator
states and for the iteration order `C, A, B`. -/
theorem mostFrequentValue_deterministic_witness :
    (countsABC.entries.Perm countsCAB.entries ∧ ('B', 5) ∈ countsABC.entries ∧
      ∀ p ∈ countsABC.entries, p.1 ≠ 'B' → p.2 < 5) ∧
    mostFrequentValue countingDistribution countsABC 0 = some 'B' ∧
    mostFrequentValue countingDistribution countsABC 1 = some 'B' ∧
    mostFrequentValue countingDistribution countsCAB 1 = some 'B' :=
  ⟨by decide,
    mostFrequentValue_deterministic countsABC countsCAB (by decide) 'B' 5 (by decide)
      (by decide) countingDistribution 0 countingDistribution 1⟩

/-- C7, counterexample: on the tie `{A:5, B:5}` the generator of the caller is
in the state it had before the call (`0` draws made), not in the state after
one draw: the function drew from its by-value copy. -/
theorem mostFrequentValue_generator_counterexample :
    2 ≤ (tiedKeys countsAB.entries).length ∧
    (mostFrequentValueCall countingDistribution countsAB 0).caller_generator ≠
      (countingDistribution.draw 0 ((tiedKeys countsAB.entries).length - 1) 0).2 := by
  decide

/-- C7 (amended): `mostFrequentValue` receives the generator by value.  The
generator of the caller is in the same state after the call as before it, in
every case.  The copy the function works on is advanced by exactly one draw
(from `[0, tiedCount - 1]`) when two or more values tie for the maximum count,
and is unchanged when a single value attains the maximum. -/
theorem mostFrequentValue_generator {α σ : Type} (U : UniformIntDistribution σ)
    (class_count : ClassCountMap α) (g : σ) :
    (mostFrequentValueCall U class_count g).caller_generator = g ∧
    ((tiedKeys class_count.entries).length = 1 →
      (mostFrequentValueCall U class_count g).callee_generator = g) ∧
    (2 ≤ (tiedKeys class_count.entries).length →
      (mostFrequentValueCall U class_count g).callee_generator =
        (U.draw 0 ((tiedKeys class_count.entries).length - 1) g).2) := by
  have hne : (tiedKeys class_count.entries).length ≠ 0 → class_count.entries ≠ [] := by
    intro h hnil
    rw [hnil] at h
    exact h rfl
  refine ⟨rfl, ?_, ?_⟩
  · intro h1
    show (mostFrequentValueBody U class_count g).2 = g
    rw [mostFrequentValueBody_eq U class_count g (hne (by omega)), if_pos h1]
  · intro h2
    show (mostFrequentValueBody U class_count g).2 = _
    rw [mostFrequentValueBody_eq U class_count g (hne (by omega)), if_neg (by omega)]

/-- C7, instance: the tie `{A:5, B:5}` and the single maximum of
`{A:3, B:5, C:1}`. -/
theorem mostFrequentValue_generator_witness :
    (2 ≤ (tiedKeys countsAB.entries).length ∧ (tiedKeys countsABC.entries).length = 1) ∧
    (mostFrequentValueCall countingDistribution countsAB 0).caller_generator = 0 ∧
    (mostFrequentValueCall countingDistribution countsAB 0).callee_generator =
      (countingDistribution.draw 0 ((tiedKeys countsAB.entries).length - 1) 0).2 ∧
    (mostFrequentValueCall countingDistribution countsABC 0).callee_generator = 0 :=
  ⟨by decide,
    (mostFrequentValue_generator countingDistribution countsAB 0).1,
    (mostFrequentValue_generator countingDistribution countsAB 0).2.2 (by decide),
    (mostFrequentValue_generator countingDistribution countsABC 0).2.1 (by decide)⟩

/-! ## The loops of `computeConcordanceIndex` -/

theorem pairUpdate_eq (time_i status_i time_j status_j chf_i chf_j : ℚ) (acc : ℚ × ℚ) :
    pairUpdate time_i status_i time_j status_j chf_i chf_j acc =
      acc + pairContribution time_i status_i time_j status_j chf_i chf_j := by
  unfold pairUpdate pairContribution skipped credit
  by_cases h1 : time_i < time_j ∧ status_i = 0
  · simp [h1]
  by_cases h2 : time_j < time_i ∧ status_j = 0
  · simp [h2]
  by_cases h3 : time_i = time_j ∧ status_i = status_j
  · simp [h3]
  have hs : ¬ ((time_i < time_j ∧ status_i = 0) ∨ (time_j < time_i ∧ status_j = 0) ∨
      (time_i = time_j ∧ status_i = status_j)) := by tauto
  simp only [if_neg h1, if_neg h2, if_neg h3, if_neg hs]
  by_cases h4 : time_i < time_j ∧ chf_i > chf_j
  · simp only [if_pos h4, if_pos (Or.inl h4 : _ ∨ (time_j < time_i ∧ chf_j > chf_i))]
    ext <;> simp
  by_cases h5 : time_j < time_i ∧ chf_j > chf_i
  · simp only [if_neg h4, if_pos h5, if_pos (Or.inr h5 : (time_i < time_j ∧ chf_i > chf_j) ∨ _)]
    ext <;> simp
  have hc : ¬ ((time_i < time_j ∧ chf_i > chf_j) ∨ (time_j < time_i ∧ chf_j > chf_i)) := by
    tauto
  simp only [if_neg h4, if_neg h5, if_neg hc]
  by_cases h6 : chf_i = chf_j
  · simp only [if_pos h6]; ext <;> simp
  · simp only [if_neg h6]; ext <;> simp

/-- A monadic fold whose steps add a value to the accumulator adds the sum. -/
theorem foldlM_add {M : Type} [AddCommMonoid M] (f : M → Nat → Option M) (g : Nat → M) :
    ∀ (l : List Nat) (acc : M), (∀ x ∈ l, ∀ a, f a x = some (a + g x)) →
      l.foldlM f acc = some (acc + (l.map g).sum)
  | [], acc, _ => by simp
  | x :: l, acc, h => by
    rw [List.foldlM_cons, h x (by simp)]
    show List.foldlM f (acc + g x) l = _
    rw [foldlM_add f g l _ (fun y hy => h y (List.mem_cons_of_mem _ hy)), List.map_cons,
      List.sum_cons, add_assoc]

/-- Two monadic folds whose steps agree on the elements of the list agree. -/
theorem foldlM_congr {M : Type} (f g : M → Nat → Option M) :
    ∀ (l : List Nat) (acc : M), (∀ x ∈ l, ∀ a, f a x = g a x) →
      l.foldlM f acc = l.foldlM g acc
  | [], acc, _ => by simp
  | x :: l, acc, h => by
    rw [List.foldlM_cons, List.foldlM_cons, h x (by simp)]
    congr 1
    funext b
    exact foldlM_congr f g l b (fun y hy => h y (List.mem_cons_of_mem _ hy))

/-- The list of sample IDs has an entry for every local position. -/
theorem sampleOf_eq_localRow (sample_IDs : List Nat) (n i : Nat)
    (hwf : sample_IDs = [] ∨ n ≤ sample_IDs.length) (hi : i < n) :
    sampleOf sample_IDs i = some (localRow sample_IDs i) := by
  unfold sampleOf localRow
  by_cases h : sample_IDs = []
  · simp [h]
  · have hlen : i < sample_IDs.length := by
      rcases hwf with h' | h'
      · exact absurd h' h
      · omega
    simp [h, List.getD_eq_getElem?_getD, List.getElem?_eq_getElem hlen]

theorem innerStep_eq (data : Data) (sum_chf : List ℚ) (dependent_varID status_varID : Nat)
    (sample_IDs : List Nat) (hwf : sample_IDs = [] ∨ sum_chf.length ≤ sample_IDs.length)
    (i j : Nat) (hi : i < sum_chf.length) (hj : j < sum_chf.length) (acc : ℚ × ℚ) :
    innerStep data sum_chf dependent_varID status_varID sample_IDs i
        (data.get (localRow sample_IDs i) dependent_varID)
        (data.get (localRow sample_IDs i) status_varID) acc j =
      some (acc + contributionAt data sum_chf dependent_varID status_varID sample_IDs i j) := by
  unfold innerStep contributionAt
  rw [sampleOf_eq_localRow sample_IDs _ j hwf hj]
  simp [List.getElem?_eq_getElem hi, List.getElem?_eq_getElem hj, pairUpdate_eq,
    List.getD_eq_getElem?_getD]

theorem outerStep_eq (data : Data) (sum_chf : List ℚ) (dependent_varID status_varID : Nat)
    (sample_IDs : List Nat) (hwf : sample_IDs = [] ∨ sum_chf.length ≤ sample_IDs.length)
    (i : Nat) (hi : i < sum_chf.length) (acc : ℚ × ℚ) :
    outerStep data sum_chf dependent_varID status_varID sample_IDs acc i =
      some (acc + ((List.range' (i + 1) (sum_chf.length - (i + 1))).map
        (contributionAt data sum_chf dependent_varID status_varID sample_IDs i)).sum) := by
  unfold outerStep
  rw [sampleOf_eq_localRow sample_IDs _ i hwf hi]
  simp only [Option.bind_eq_bind, Option.some_bind]
  apply foldlM_add
  intro j hj a
  rw [List.mem_range'_1] at hj
  exact innerStep_eq data sum_chf dependent_varID status_varID sample_IDs hwf i j hi
    (by omega) a

/-- The accumulators after the loops, as a double sum over the pairs. -/
theorem concordanceSums_eq (data : Data) (sum_chf : List ℚ)
    (dependent_varID status_varID : Nat) (sample_IDs : List Nat)
    (hwf : sample_IDs = [] ∨ sum_chf.length ≤ sample_IDs.length) :
    concordanceSums data sum_chf dependent_varID status_varID sample_IDs =
      some (∑ i ∈ Finset.range sum_chf.length,
        ∑ j ∈ Finset.Ico (i + 1) sum_chf.length,
          contributionAt data sum_chf dependent_varID status_varID sample_IDs i j) := by
  unfold concordanceSums
  rw [foldlM_add _ (fun i => ((List.range' (i + 1) (sum_chf.length - (i + 1))).map
    (contributionAt data sum_chf dependent_varID status_varID sample_IDs i)).sum)]
  · rw [show ((0 : ℚ), (0 : ℚ)) = 0 from rfl, zero_add,
      ← List.sum_toFinset _ (List.nodup_range _)]
    have hr : (List.range sum_chf.length).toFinset = Finset.range sum_chf.length := by
      ext x; simp
    rw [hr]
    refine congrArg some (Finset.sum_congr rfl ?_)
    intro i hi
    rw [← List.sum_toFinset _ (List.nodup_range' _ _)]
    have hr' : (List.range' (i + 1) (sum_chf.length - (i + 1))).toFinset =
        Finset.Ico (i + 1) sum_chf.length := by
      ext x
      simp only [List.mem_toFinset, List.mem_range'_1, Finset.mem_Ico]
      rw [Finset.mem_range] at hi
      omega
    rw [hr']
  · intro i hi a
    rw [List.mem_range] at hi
    exact outerStep_eq data sum_chf dependent_varID status_varID sample_IDs hwf i hi a

/-- A sum over the pairs `i < j < n` is a double sum. -/
theorem sum_localPairs {M : Type} [AddCommMonoid M] (n : Nat) (g : Nat × Nat → M) :
    ∑ p ∈ localPairs n, g p =
      ∑ i ∈ Finset.range n, ∑ j ∈ Finset.Ico (i + 1) n, g (i, j) := by
  unfold localPairs
  rw [Finset.sum_filter, Finset.sum_product]
  apply Finset.sum_congr rfl
  intro i hi
  simp only []
  rw [← Finset.sum_filter]
  have hset : (Finset.range n).filter (fun j => i < j) = Finset.Ico (i + 1) n := by
    ext x
    simp only [Finset.mem_filter, Finset.mem_range, Finset.mem_Ico]
    omega
  rw [hset]

/-- The loops compute the sums `W` and `P` of the pairs that are not skipped. -/
theorem concordanceSums_eq_spec (data : Data) (sum_chf : List ℚ)
    (dependent_varID status_varID : Nat) (sample_IDs : List Nat)
    (hwf : sample_IDs = [] ∨ sum_chf.length ≤ sample_IDs.length) :
    concordanceSums data sum_chf dependent_varID status_varID sample_IDs =
      some (concordantWeight data sum_chf dependent_varID status_varID sample_IDs,
        (permissibleCount data sum_chf dependent_varID status_varID sample_IDs : ℚ)) := by
  rw [concordanceSums_eq data sum_chf dependent_varID status_varID sample_IDs hwf]
  congr 1
  ext
  · rw [Prod.fst_sum]
    unfold concordantWeight permissiblePairs
    rw [Finset.sum_filter, sum_localPairs]
    apply Finset.sum_congr rfl
    intro i _
    rw [Prod.fst_sum]
    apply Finset.sum_congr rfl
    intro j _
    unfold contributionAt pairContribution
    split <;> simp_all
  · rw [Prod.snd_sum]
    unfold permissibleCount permissiblePairs
    rw [Finset.natCast_card_filter, sum_localPairs]
    apply Finset.sum_congr rfl
    intro i _
    rw [Prod.snd_sum]
    apply Finset.sum_congr rfl
    intro j _
    unfold contributionAt pairContribution
    split <;> simp_all

/-! ## Claims about `computeConcordanceIndex` -/

/-- C8: for every input with at least one permissible pair (and a list of
sample IDs that is empty or has an entry for every local position),
`computeConcordanceIndex` returns `W / P`: `P` is the number of pairs `i < j`
that are not skipped and `W` the sum of their credits (`1`, `1/2` or `0`). -/
theorem computeConcordanceIndex_eq_ratio (data : Data) (predictedRisk : List ℚ)
    (dependentColumnID statusColumnID : Nat) (sampleIDs : List Nat)
    (hwf : sampleIDs = [] ∨ predictedRisk.length ≤ sampleIDs.length)
    (hperm : 0 < permissibleCount data predictedRisk dependentColumnID statusColumnID
      sampleIDs) :
    computeConcordanceIndex data predictedRisk dependentColumnID statusColumnID sampleIDs =
      some (DoubleQuotient.finite
        (concordantWeight data predictedRisk dependentColumnID statusColumnID sampleIDs /
          permissibleCount data predictedRisk dependentColumnID statusColumnID sampleIDs)) := by
  unfold computeConcordanceIndex
  rw [concordanceSums_eq_spec data predictedRisk dependentColumnID statusColumnID sampleIDs
    hwf]
  have hne : (permissibleCount data predictedRisk dependentColumnID statusColumnID
      sampleIDs : ℚ) ≠ 0 := by
    exact_mod_cast Nat.pos_iff_ne_zero.1 hperm
  simp [divDouble, hne]

/-- C8, instance: the samples `(5,1,0.2)`, `(3,1,0.8)`, `(3,0,0.5)` have two
permissible pairs and the function returns `1/2`. -/
theorem computeConcordanceIndex_eq_ratio_witness :
    ((([] : List Nat) = [] ∨ exampleRisk.length ≤ ([] : List Nat).length) ∧
      0 < permissibleCount exampleData exampleRisk 0 1 []) ∧
    computeConcordanceIndex exampleData exampleRisk 0 1 [] =
      some (DoubleQuotient.finite (concordantWeight exampleData exampleRisk 0 1 [] /
        permissibleCount exampleData exampleRisk 0 1 [])) ∧
    computeConcordanceIndex exampleData exampleRisk 0 1 [] =
      some (DoubleQuotient.finite (1 / 2)) :=
  ⟨⟨Or.inl rfl, by decide⟩,
    computeConcordanceIndex_eq_ratio exampleData exampleRisk 0 1 [] (Or.inl rfl) (by decide),
    by
      simp [computeConcordanceIndex, concordanceSums, outerStep, innerStep, sampleOf,
        exampleData, exampleRisk, pairUpdate, divDouble, List.range_succ, List.range']
      norm_num⟩

/-- The accumulators depend on the data only through the rows of the local
positions. -/
theorem concordanceSums_congr (data data' : Data) (sum_chf : List ℚ)
    (dependent_varID status_varID : Nat) (sample_IDs sample_IDs' : List Nat)
    (hwf : sample_IDs = [] ∨ sum_chf.length ≤ sample_IDs.length)
    (hwf' : sample_IDs' = [] ∨ sum_chf.length ≤ sample_IDs'.length)
    (h : ∀ i, i < sum_chf.length → ∀ c,
      data.get (localRow sample_IDs i) c = data'.get (localRow sample_IDs' i) c) :
    concordanceSums data sum_chf dependent_varID status_varID sample_IDs =
      concordanceSums data' sum_chf dependent_varID status_varID sample_IDs' := by
  rw [concordanceSums_eq data sum_chf dependent_varID status_varID sample_IDs hwf,
    concordanceSums_eq data' sum_chf dependent_varID status_varID sample_IDs' hwf']
  refine congrArg some (Finset.sum_congr rfl ?_)
  intro i hi
  refine Finset.sum_congr rfl ?_
  intro j hj
  rw [Finset.mem_range] at hi
  rw [Finset.mem_Ico] at hj
  unfold contributionAt
  rw [h i hi, h i hi, h j hj.2, h j hj.2]

theorem localRow_nil (i : Nat) : localRow [] i = i := by
  simp [localRow]

theorem localRow_range (n i : Nat) (hi : i < n) : localRow (List.range n) i = i := by
  have hne : List.range n ≠ [] := by
    intro h
    have := congrArg List.length h
    simp at this
    omega
  simp [localRow, hne, List.getD_eq_getElem?_getD, List.getElem?_range hi]

/-- C9: an empty `sampleIDs` list gives the same value as the identity list
`[0, 1, …, n-1]`; with a non-empty list (one entry for every local position)
the value is the one obtained with the identity mapping from the data whose
row `i` is row `sampleIDs[i]` of the given data; and with a non-empty list the
row of local position `i` is `sampleIDs[i]`. -/
theorem computeConcordanceIndex_sampleIDs (data : Data) (predictedRisk : List ℚ)
    (dependentColumnID statusColumnID : Nat) :
    computeConcordanceIndex data predictedRisk dependentColumnID statusColumnID [] =
      computeConcordanceIndex data predictedRisk dependentColumnID statusColumnID
        (List.range predictedRisk.length) ∧
    (∀ sampleIDs : List Nat, sampleIDs ≠ [] → predictedRisk.length ≤ sampleIDs.length →
      computeConcordanceIndex data predictedRisk dependentColumnID statusColumnID sampleIDs =
        computeConcordanceIndex
          { data with get := fun i column => data.get (sampleIDs.getD i 0) column }
          predictedRisk dependentColumnID statusColumnID []) ∧
    ∀ (sampleIDs : List Nat) (i : Nat), sampleIDs ≠ [] →
      sampleOf sampleIDs i = sampleIDs[i]? := by
  refine ⟨?_, ?_, ?_⟩
  · unfold computeConcordanceIndex
    rw [concordanceSums_congr data data predictedRisk dependentColumnID statusColumnID []
      (List.range predictedRisk.length) (Or.inl rfl) (Or.inr (by simp))]
    intro i hi c
    rw [localRow_nil, localRow_range _ _ hi]
  · intro sampleIDs hne hlen
    unfold computeConcordanceIndex
    rw [concordanceSums_congr data
      { data with get := fun i column => data.get (sampleIDs.getD i 0) column }
      predictedRisk dependentColumnID statusColumnID sampleIDs [] (Or.inr hlen) (Or.inl rfl)]
    intro i hi c
    simp [localRow, hne]
  · intro sampleIDs i hne
    simp [sampleOf, hne]

/-- C9, instance: the worked example read through the sample IDs `[2, 1, 0]`. -/
theorem computeConcordanceIndex_sampleIDs_witness :
    (([2, 1, 0] : List Nat) ≠ [] ∧ exampleRisk.length ≤ ([2, 1, 0] : List Nat).length) ∧
    computeConcordanceIndex exampleData exampleRisk 0 1 [] =
      computeConcordanceIndex exampleData exampleRisk 0 1 (List.range exampleRisk.length) ∧
    computeConcordanceIndex exampleData exampleRisk 0 1 [2, 1, 0] =
      computeConcordanceIndex
        { exampleData with get := fun i column => exampleData.get ([2, 1, 0].getD i 0) column }
        exampleRisk 0 1 [] :=
  ⟨by decide, (computeConcordanceIndex_sampleIDs exampleData exampleRisk 0 1).1,
    (computeConcordanceIndex_sampleIDs exampleData exampleRisk 0 1).2.1 [2, 1, 0] (by decide)
      (by decide)⟩

/-! ## The checks of the validator -/

theorem checkPositiveIntegers_iff :
    ∀ all_values : List ℚ, checkPositiveIntegers all_values = true ↔
      ∀ v ∈ all_values, 1 ≤ v ∧ (⌊v⌋ : ℚ) = v
  | [] => by simp [checkPositiveIntegers]
  | value :: rest => by
    rw [checkPositiveIntegers]
    by_cases h : value < 1 ∨ ¬ ((⌊value⌋ : ℚ) = value)
    · rw [if_pos h]
      constructor
      · intro hf; exact absurd hf (by simp)
      · intro hall
        have := hall value (by simp)
        rcases h with h | h
        · exact absurd this.1 (not_le.2 h)
        · exact absurd this.2 h
    · rw [if_neg h, checkPositiveIntegers_iff rest]
      have hv : 1 ≤ value ∧ (⌊value⌋ : ℚ) = value := by
        constructor
        · exact not_lt.1 (fun hlt => h (Or.inl hlt))
        · by_contra hne; exact h (Or.inr hne)
      constructor
      · intro hrest v hmem
        rcases List.mem_cons.1 hmem with rfl | hmem
        · exact hv
        · exact hrest v hmem
      · intro hall v hmem
        exact hall v (List.mem_cons_of_mem _ hmem)

theorem append_ne_empty (a b : String) (ha : a.length ≠ 0) : a ++ b ≠ "" := by
  intro h
  have := congrArg String.length h
  rw [String.length_append] at this
  simp at this
  exact ha this.1

theorem mem_getAllValues (data : Data) (varID : Nat) (v : ℚ) :
    v ∈ data.getAllValues (List.range data.getNumRows) varID ↔
      v ∈ observedValues data varID := by
  simp [Data.getAllValues, observedValues]

theorem length_getAllValues (data : Data) (varID : Nat) :
    (data.getAllValues (List.range data.getNumRows) varID).length =
      (observedValues data varID).card := by
  unfold Data.getAllValues observedValues
  have hset : ((List.range data.getNumRows).map (fun row => data.get row varID)).toFinset =
      (Finset.range data.getNumRows).image (fun row => data.get row varID) := by
    ext v
    simp
  rw [← hset, List.card_toFinset]

theorem checkVariablesLoop_cons (data : Data) (name : String) (rest : List String) :
    checkVariablesLoop data (List.range data.getNumRows) (name :: rest) = some "" ↔
      PassesChecks data name ∧
        checkVariablesLoop data (List.range data.getNumRows) rest = some "" := by
  rw [checkVariablesLoop]
  unfold PassesChecks
  cases hid : data.getVariableID name with
  | none => simp
  | some varID =>
    simp only [Option.some.injEq, exists_eq_left']
    have hlen := length_getAllValues data varID
    have hmem := mem_getAllValues data varID
    have hmax : 8 * sizeof_size_t - 1 = 63 := by decide
    rw [hmax]
    by_cases h1 : (data.getAllValues (List.range data.getNumRows) varID).length > 63
    · rw [if_pos h1]
      constructor
      · intro h
        exact absurd (Option.some.inj h) (append_ne_empty _ _ (by
          simp only [String.length_append]
          have : 0 < "Too many levels in unordered categorical variable ".length := by
            decide
          omega))
      · rintro ⟨⟨hc, _⟩, _⟩
        omega
    · rw [if_neg h1]
      by_cases h2 : checkPositiveIntegers
          (data.getAllValues (List.range data.getNumRows) varID) = true
      · simp only [h2, Bool.not_true, Bool.false_eq_true, if_false]
        rw [checkPositiveIntegers_iff] at h2
        constructor
        · intro h
          exact ⟨⟨by omega, fun v hv => h2 v ((hmem v).2 hv)⟩, h⟩
        · exact fun h => h.2
      · have h2' : checkPositiveIntegers
            (data.getAllValues (List.range data.getNumRows) varID) = false := by
          simpa using h2
        simp only [h2', Bool.not_false, if_true]
        constructor
        · intro h
          exact absurd (Option.some.inj h) (append_ne_empty _ _ (by
            simp only [String.length_append]
            have : 0 < "Not all values in unordered categorical variable ".length := by
              decide
            omega))
        · rintro ⟨⟨_, hall⟩, _⟩
          exact absurd ((checkPositiveIntegers_iff _).2 (fun v hv => hall v ((hmem v).1 hv))) h2

theorem checkVariablesLoop_iff (data : Data) :
    ∀ names : List String,
      checkVariablesLoop data (List.range data.getNumRows) names = some "" ↔
        ∀ name ∈ names, PassesChecks data name
  | [] => by simp [checkVariablesLoop]
  | name :: rest => by
    rw [checkVariablesLoop_cons, checkVariablesLoop_iff data rest]
    simp

theorem card_observedValues_levelData (n : Nat) :
    (observedValues (levelData n) 0).card = n := by
  unfold observedValues levelData
  rw [Finset.card_image_of_injective, Finset.card_range]
  intro a b hab
  simpa using hab

theorem passesChecks_levelData (n : Nat) : PassesChecks (levelData n) "x" ↔ n ≤ 63 := by
  unfold PassesChecks
  constructor
  · rintro ⟨columnID, hid, hcard, _⟩
    have h0 : columnID = 0 := by
      simp [levelData] at hid
      exact hid.symm
    subst h0
    rw [card_observedValues_levelData] at hcard
    exact hcard
  · intro hn
    refine ⟨0, by simp [levelData], by rw [card_observedValues_levelData]; exact hn, ?_⟩
    intro v hv
    simp only [observedValues, levelData, Finset.mem_image, Finset.mem_range] at hv
    obtain ⟨row, _, rfl⟩ := hv
    constructor
    · have : (0 : ℚ) ≤ row := Nat.cast_nonneg row
      linarith
    · simp

/-! ## Claims about `checkUnorderedVariables` -/

/-- C10: `checkUnorderedVariables` returns the empty message if and only if
every named variable passes both checks (at most 63 distinct observed values
over all rows, each at least 1 and without fractional part); an empty list of
names yields the empty message; a variable with 63 levels passes and one with
64 levels does not. -/
theorem checkUnorderedVariables_empty_iff (data : Data) (names : List String) :
    (checkUnorderedVariables data names = some "" ↔
      ∀ name ∈ names, PassesChecks data name) ∧
    checkUnorderedVariables data [] = some "" ∧
    checkUnorderedVariables (levelData 63) ["x"] = some "" ∧
    checkUnorderedVariables (levelData 64) ["x"] ≠ some "" := by
  refine ⟨checkVariablesLoop_iff data names, rfl, ?_, ?_⟩
  · apply (checkVariablesLoop_iff (levelData 63) ["x"]).2
    intro name hname
    rw [List.mem_singleton] at hname
    subst hname
    exact (passesChecks_levelData 63).2 (Nat.le_refl _)
  · intro h
    have := (checkVariablesLoop_iff (levelData 64) ["x"]).1 h "x" (by simp)
    have := (passesChecks_levelData 64).1 this
    omega

/-- A variable that passes both checks lets the loop go on to the next name. -/
theorem checkVariablesLoop_pass (data : Data) (name : String) (rest : List String)
    (hpass : PassesChecks data name) :
    checkVariablesLoop data (List.range data.getNumRows) (name :: rest) =
      checkVariablesLoop data (List.range data.getNumRows) rest := by
  obtain ⟨columnID, hid, hcard, hall⟩ := hpass
  rw [checkVariablesLoop, hid]
  simp only []
  have hmax : 8 * sizeof_size_t - 1 = 63 := by decide
  rw [hmax, length_getAllValues, if_neg (by omega)]
  have hpos : checkPositiveIntegers
      (data.getAllValues (List.range data.getNumRows) columnID) = true :=
    (checkPositiveIntegers_iff _).2 (fun v hv => hall v ((mem_getAllValues data columnID v).1 hv))
  simp [hpos]

/-- The message for a variable with too many levels. -/
theorem checkVariablesLoop_too_many (data : Data) (name : String) (rest : List String)
    (columnID : Nat) (hid : data.getVariableID name = some columnID)
    (hcard : (observedValues data columnID).card > 63) :
    checkVariablesLoop data (List.range data.getNumRows) (name :: rest) =
      some ("Too many levels in unordered categorical variable " ++ name ++ ". Only " ++ "63" ++
        " levels allowed on this system.") := by
  rw [checkVariablesLoop, hid]
  simp only []
  have hmax : 8 * sizeof_size_t - 1 = 63 := by decide
  have hstr : uintToString 63 = "63" := by decide
  rw [hmax, length_getAllValues, if_pos hcard, hstr]

/-- The message for a variable within the level limit whose values are not all
positive integers. -/
theorem checkVariablesLoop_not_positive (data : Data) (name : String) (rest : List String)
    (columnID : Nat) (hid : data.getVariableID name = some columnID)
    (hcard : (observedValues data columnID).card ≤ 63)
    (hbad : ¬ ∀ v ∈ observedValues data columnID, 1 ≤ v ∧ (⌊v⌋ : ℚ) = v) :
    checkVariablesLoop data (List.range data.getNumRows) (name :: rest) =
      some ("Not all values in unordered categorical variable " ++ name ++
        " are positive integers.") := by
  rw [checkVariablesLoop, hid]
  simp only []
  have hmax : 8 * sizeof_size_t - 1 = 63 := by decide
  rw [hmax, length_getAllValues, if_neg (by omega)]
  have hneg : checkPositiveIntegers
      (data.getAllValues (List.range data.getNumRows) columnID) = false := by
    cases h : checkPositiveIntegers (data.getAllValues (List.range data.getNumRows) columnID)
    · rfl
    · exact absurd (fun v hv => (checkPositiveIntegers_iff _).1 h v
        ((mem_getAllValues data columnID v).2 hv)) hbad
  simp [hneg]

theorem checkVariablesLoop_append_pass (data : Data) :
    ∀ (passing rest : List String), (∀ name ∈ passing, PassesChecks data name) →
      checkVariablesLoop data (List.range data.getNumRows) (passing ++ rest) =
        checkVariablesLoop data (List.range data.getNumRows) rest
  | [], _, _ => rfl
  | name :: passing, rest, h => by
    rw [List.cons_append, checkVariablesLoop_pass data name _ (h name (by simp))]
    exact checkVariablesLoop_append_pass data passing rest
      (fun n hn => h n (List.mem_cons_of_mem _ hn))

theorem card_observedValues_rowData (n : Nat) :
    (observedValues (rowData n) 0).card = n := by
  unfold observedValues rowData
  rw [Finset.card_image_of_injective, Finset.card_range]
  intro a b hab
  simpa using hab

/-- C11: when the variables before `v` in the list pass both checks and `v`
(a variable of the data) does not, the returned message is the one of `v`,
whatever names follow `v`: the too-many-levels message, with the name of `v`
and the limit 63, when `v` has more than 63 distinct levels (whether or not its
values are positive integers), and otherwise the not-positive-integers message
with the name of `v`. -/
theorem checkUnorderedVariables_first_failure (data : Data) (passing : List String)
    (v : String) (later : List String) (columnID : Nat)
    (hpass : ∀ name ∈ passing, PassesChecks data name)
    (hid : data.getVariableID v = some columnID) :
    ((observedValues data columnID).card > 63 →
      checkUnorderedVariables data (passing ++ v :: later) =
        some ("Too many levels in unordered categorical variable " ++ v ++ ". Only " ++ "63" ++
          " levels allowed on this system.")) ∧
    ((observedValues data columnID).card ≤ 63 →
      (¬ ∀ x ∈ observedValues data columnID, 1 ≤ x ∧ (⌊x⌋ : ℚ) = x) →
      checkUnorderedVariables data (passing ++ v :: later) =
        some ("Not all values in unordered categorical variable " ++ v ++
          " are positive integers.")) := by
  constructor
  · intro hcard
    show checkVariablesLoop data (List.range data.getNumRows) (passing ++ v :: later) = _
    rw [checkVariablesLoop_append_pass data passing _ hpass]
    exact checkVariablesLoop_too_many data v later columnID hid hcard
  · intro hcard hbad
    show checkVariablesLoop data (List.range data.getNumRows) (passing ++ v :: later) = _
    rw [checkVariablesLoop_append_pass data passing _ hpass]
    exact checkVariablesLoop_not_positive data v later columnID hid hcard hbad

/-- C11, instance: the variable `x` with the 64 levels `0, …, 63`, followed by
a name that the data does not know, gives the too-many-levels message of `x`;
with the 3 levels `0, 1, 2` it gives the not-positive-integers message. -/
theorem checkUnorderedVariables_first_failure_witness :
    ((∀ name ∈ ([] : List String), PassesChecks (rowData 64) name) ∧
      (rowData 64).getVariableID "x" = some 0 ∧
      (observedValues (rowData 64) 0).card > 63) ∧
    checkUnorderedVariables (rowData 64) ([] ++ "x" :: ["unknown"]) =
      some "Too many levels in unordered categorical variable x. Only 63 levels allowed on this system." ∧
    checkUnorderedVariables (rowData 3) ([] ++ "x" :: ["unknown"]) =
      some "Not all values in unordered categorical variable x are positive integers." :=
  ⟨⟨by simp, by decide, by rw [card_observedValues_rowData]; decide⟩,
    (checkUnorderedVariables_first_failure (rowData 64) [] "x" ["unknown"] 0 (by simp)
      (by decide)).1 (by rw [card_observedValues_rowData]; decide),
    (checkUnorderedVariables_first_failure (rowData 3) [] "x" ["unknown"] 0 (by simp)
      (by decide)).2 (by rw [card_observedValues_rowData]; decide)
      (fun h => by
        have h0 := (h 0 (by
          simp only [observedValues, rowData, Finset.mem_image, Finset.mem_range]
          exact ⟨0, by decide, by simp⟩)).1
        norm_num at h0)⟩

/-- C12: `checkPositiveIntegers` returns true if and only if every value of the
list is at least 1 and equal to its floor; it accepts the empty list and
`{1, 2, 3}` and rejects `{1.5, 2}` and `{0, 1, 2}`. -/
theorem checkPositiveIntegers_spec (all_values : List ℚ) :
    (checkPositiveIntegers all_values = true ↔
      ∀ v ∈ all_values, v ≥ 1 ∧ (⌊v⌋ : ℚ) = v) ∧
    checkPositiveIntegers [] = true ∧
    checkPositiveIntegers [1, 2, 3] = true ∧
    checkPositiveIntegers [3 / 2, 2] = false ∧
    checkPositiveIntegers [0, 1, 2] = false := by
  refine ⟨checkPositiveIntegers_iff all_values, rfl, ?_, ?_, ?_⟩
  · rw [checkPositiveIntegers_iff]
    intro v hv
    simp only [List.mem_cons, List.mem_singleton, List.not_mem_nil, or_false] at hv
    rcases hv with rfl | rfl | rfl
    · exact ⟨le_refl _, by simp⟩
    · have hfloor : ⌊(2 : ℚ)⌋ = 2 := by
        rw [Int.floor_eq_iff]
        constructor <;> norm_num
      exact ⟨by norm_num, by rw [hfloor]; norm_num⟩
    · have hfloor : ⌊(3 : ℚ)⌋ = 3 := by
        rw [Int.floor_eq_iff]
        constructor <;> norm_num
      exact ⟨by norm_num, by rw [hfloor]; norm_num⟩
  · have hfloor : ⌊(3 / 2 : ℚ)⌋ = 1 := by
      rw [Int.floor_eq_iff]
      constructor <;> norm_num
    rw [checkPositiveIntegers, if_pos (Or.inr (by rw [hfloor]; norm_num))]
  · rw [checkPositiveIntegers, if_pos (Or.inl (by norm_num))]

/-! ## The part lengths of `equalSplit` -/

/-- The integer expression for `part_length_long` is the ceiling of the
quotient. -/
theorem ceilDiv_eq_ceil (L n : Nat) (hn : 0 < n) : ceilDiv L n = ⌈(L : ℚ) / n⌉₊ := by
  have hnq : (0 : ℚ) < n := by exact_mod_cast hn
  have hdm := Nat.div_add_mod L n
  have hlt := Nat.mod_lt L hn
  have hL : (L : ℚ) = n * (L / n : Nat) + (L % n : Nat) := by exact_mod_cast hdm.symm
  by_cases h0 : L % n = 0
  · rw [ceilDiv_of_mod_eq_zero L n hn h0]
    have hq : (L : ℚ) / n = (L / n : Nat) := by
      rw [hL, h0]
      field_simp
    rw [hq, Nat.ceil_natCast]
  · rw [ceilDiv_of_mod_ne_zero L n hn h0]
    symm
    rw [Nat.ceil_eq_iff (Nat.succ_ne_zero _)]
    have hr1 : (0 : ℚ) < (L % n : Nat) := by exact_mod_cast Nat.pos_of_ne_zero h0
    have hr2 : ((L % n : Nat) : ℚ) < n := by exact_mod_cast hlt
    constructor
    · rw [lt_div_iff₀ hnq, Nat.succ_sub_one, hL, mul_comm]
      linarith
    · rw [div_le_iff₀ hnq, hL]
      push_cast
      nlinarith

theorem partLengths_map (f : Nat → Nat) : ∀ (m a : Nat),
    partLengths ((List.range' a (m + 1)).map f) =
      (List.range' a m).map (fun k => f (k + 1) - f k)
  | 0, a => by simp [partLengths]
  | m + 1, a => by
    have ih := partLengths_map f m (a + 1)
    rw [List.range'_succ, List.map_cons] at ih ⊢
    rw [List.range'_succ, List.map_cons, partLengths, ih]
    simp [List.range'_succ]

theorem partLengths_progression (start s c n : Nat) (hc : c ≤ n) :
    partLengths ((List.range (n + 1)).map (fun k => start + k * s + min k c)) =
      List.replicate c (s + 1) ++ List.replicate (n - c) s := by
  rw [List.range_eq_range', partLengths_map]
  apply List.ext_getElem
  · simp; omega
  · intro k h1 h2
    simp only [List.length_map, List.length_range'] at h1
    simp only [List.getElem_map, List.getElem_range', Nat.zero_add, Nat.one_mul]
    by_cases hk : k < c
    · rw [List.getElem_append_left (by simpa using hk), List.getElem_replicate]
      rw [Nat.add_mul]
      omega
    · rw [List.getElem_append_right (by simpa using Nat.le_of_not_lt hk),
        List.getElem_replicate]
      rw [Nat.add_mul]
      omega

/-- The part lengths of the boundary list: `L mod n` parts of the long length
first, then parts of the short length. -/
theorem partLengths_boundaryList (start L n : Nat) (hn : 0 < n) :
    partLengths (boundaryList start L n) =
      List.replicate (L % n) (L / n + 1) ++ List.replicate (n - L % n) (L / n) :=
  partLengths_progression start (L / n) (L % n) n (Nat.le_of_lt (Nat.mod_lt L hn))

/-- C13, counterexample: `equalSplit(0, 4294967293, 3)` has `L = 4294967294`,
`cut_pos = 2`, long length `1431655765` and short length `1431655764`, but
after `end + 1` is pushed the counter wraps around to `1431655762` and is
pushed again: no run returns two long parts followed by one short part. -/
theorem equalSplit_parts_counterexample :
    ¬ ∃ fuel bs, equalSplit fuel [] 0 4294967293 3 = some bs ∧
      partLengths bs = List.replicate 2 1431655765 ++ List.replicate (3 - 2) 1431655764 := by
  rintro ⟨fuel, bs, h, hparts⟩
  rcases fuel with _ | _ | _ | fuel
  all_goals
    simp [equalSplit, UINT_SIZE, ceilDiv, pushWhileLt, pushWhileLe] at h
  obtain ⟨t, rfl⟩ := pushWhileLe_prefix _ _ _ _ _ _ h
  simp [partLengths, List.replicate] at hparts

/-- C13 (amended): for `start ≤ end` and `2 ≤ num_parts ≤ L`, `L = end - start + 1`,
provided `end + 1 + floor(L / num_parts)` is representable in `uint`, the
returned partition consists of `L mod num_parts` parts of length
`ceil(L / num_parts)` followed by `num_parts - L mod num_parts` parts of length
`floor(L / num_parts)`; the part lengths are non-increasing and sum to `L`. -/
theorem equalSplit_parts (start end_ num_parts : Nat) (h1 : start ≤ end_)
    (h2 : 2 ≤ num_parts) (h3 : num_parts ≤ end_ - start + 1)
    (h4 : end_ + 1 + (end_ - start + 1) / num_parts < UINT_SIZE) :
    ∃ bs : List Nat,
      (∀ fuel, num_parts + 2 ≤ fuel → equalSplit fuel [] start end_ num_parts = some bs) ∧
      partLengths bs =
        List.replicate ((end_ - start + 1) % num_parts)
            ⌈((end_ - start + 1 : Nat) : ℚ) / num_parts⌉₊ ++
          List.replicate (num_parts - (end_ - start + 1) % num_parts)
            ⌊((end_ - start + 1 : Nat) : ℚ) / num_parts⌋₊ ∧
      (partLengths bs).Pairwise (· ≥ ·) ∧
      (partLengths bs).sum = end_ - start + 1 := by
  have hn : 0 < num_parts := by omega
  have hlt := Nat.mod_lt (end_ - start + 1) hn
  have hdm := Nat.div_add_mod (end_ - start + 1) num_parts
  have hparts := partLengths_boundaryList start (end_ - start + 1) num_parts hn
  refine ⟨boundaryList start (end_ - start + 1) num_parts, ?_, ?_, ?_, ?_⟩
  · intro fuel hf
    exact equalSplit_balanced start end_ num_parts fuel h1 h2 h3 h4 hf
  · rw [hparts, Nat.floor_div_eq_div, ← ceilDiv_eq_ceil _ _ hn]
    by_cases h0 : (end_ - start + 1) % num_parts = 0
    · rw [h0]; rfl
    · rw [ceilDiv_of_mod_ne_zero _ _ hn h0]
  · rw [hparts, List.pairwise_append]
    refine ⟨?_, ?_, ?_⟩
    · rw [List.pairwise_replicate]
      exact Or.inr (Nat.le_refl _)
    · rw [List.pairwise_replicate]
      exact Or.inr (Nat.le_refl _)
    · intro a ha b hb
      rw [List.eq_of_mem_replicate ha, List.eq_of_mem_replicate hb]
      exact Nat.le_succ _
  · rw [hparts, List.sum_append, List.sum_replicate, List.sum_replicate]
    simp only [smul_eq_mul]
    generalize (end_ - start + 1) / num_parts = s at *
    generalize (end_ - start + 1) % num_parts = c at *
    have e1 : (num_parts - c) * s + c * s = num_parts * s := by
      rw [← Nat.add_mul]; congr 1; omega
    rw [Nat.mul_add, Nat.mul_one]
    omega

/-- C13, instance: `[3, 12]` in four parts: two parts of length 3, then two of
length 2. -/
theorem equalSplit_parts_witness :
    (3 ≤ 12 ∧ 2 ≤ 4 ∧ 4 ≤ 12 - 3 + 1 ∧ 12 + 1 + (12 - 3 + 1) / 4 < UINT_SIZE) ∧
    ∃ bs : List Nat, equalSplit 6 [] 3 12 4 = some bs ∧
      partLengths bs =
        List.replicate ((12 - 3 + 1) % 4) ⌈((12 - 3 + 1 : Nat) : ℚ) / (4 : Nat)⌉₊ ++
          List.replicate (4 - (12 - 3 + 1) % 4) ⌊((12 - 3 + 1 : Nat) : ℚ) / (4 : Nat)⌋₊ ∧
      (partLengths bs).Pairwise (· ≥ ·) ∧ (partLengths bs).sum = 12 - 3 + 1 :=
  ⟨by decide,
    match equalSplit_parts 3 12 4 (by decide) (by decide) (by decide) (by decide) with
    | ⟨bs, hrun, hparts, hmono, hsum⟩ => ⟨bs, hrun 6 (by decide), hparts, hmono, hsum⟩⟩

/-! ## Ties in `mostFrequentValue` -/

/-- The tied keys are the keys whose count no other count exceeds. -/
theorem mem_tiedKeys_iff {α : Type} (l : List (α × Nat)) (k : α) :
    k ∈ tiedKeys l ↔ ∃ c, (k, c) ∈ l ∧ ∀ p ∈ l, p.2 ≤ c := by
  constructor
  · exact mem_tiedKeys l k
  · rintro ⟨c, hc, hmax⟩
    unfold tiedKeys
    rw [List.mem_map]
    refine ⟨(k, c), ?_, rfl⟩
    rw [List.mem_filter]
    exact ⟨hc, by simpa using hmax⟩

/-- In a list without repetition every entry sits at exactly one index. -/
theorem existsUnique_index_of_nodup {α : Type} (l : List α) (hnd : l.Nodup) (a : α)
    (ha : a ∈ l) : ∃! i, i < l.length ∧ l[i]? = some a := by
  obtain ⟨i, hi, hia⟩ := List.getElem_of_mem ha
  refine ⟨i, ⟨hi, by rw [List.getElem?_eq_getElem hi, hia]⟩, ?_⟩
  rintro j ⟨hj, hja⟩
  rw [List.getElem?_eq_getElem hj, Option.some.injEq] at hja
  exact (@List.Nodup.getElem_inj_iff _ _ hnd j hj i hi).1 (hja.trans hia.symm)

/-- C14: when `k ≥ 2` keys tie for the maximum count, the list `major_classes`
built by the scan has `k` entries, without repetition, and its entries are the
keys whose count is the maximum; the drawn index lies in `[0, k)` and the
function returns the entry at that index, so a run whose draw is `i` returns
entry `i`, and every tied key is the entry of exactly one index below `k`. -/
theorem mostFrequentValue_tie {α σ : Type} (U : UniformIntDistribution σ)
    (class_count : ClassCountMap α) (g : σ) (k : Nat)
    (hk : (tiedKeys class_count.entries).length = k) (h2 : 2 ≤ k) :
    (findMajorClasses class_count.entries).2.length = k ∧
    (findMajorClasses class_count.entries).2.Nodup ∧
    (∀ key, key ∈ (findMajorClasses class_count.entries).2 ↔
      ∃ c, (key, c) ∈ class_count.entries ∧ ∀ p ∈ class_count.entries, p.2 ≤ c) ∧
    ((U.draw 0 (k - 1) g).1 < k ∧
      mostFrequentValue U class_count g =
        (findMajorClasses class_count.entries).2[(U.draw 0 (k - 1) g).1]?) ∧
    (∀ i, (U.draw 0 (k - 1) g).1 = i →
      mostFrequentValue U class_count g = (findMajorClasses class_count.entries).2[i]?) ∧
    (∀ key ∈ (findMajorClasses class_count.entries).2,
      ∃! i, i < k ∧ (findMajorClasses class_count.entries).2[i]? = some key) := by
  have hne : class_count.entries ≠ [] := by
    intro hnil
    rw [hnil] at hk
    simp [tiedKeys] at hk
    omega
  have hret : mostFrequentValue U class_count g =
      (findMajorClasses class_count.entries).2[(U.draw 0 (k - 1) g).1]? := by
    unfold mostFrequentValue
    rw [mostFrequentValueBody_eq U class_count g hne, hk, if_neg (by omega),
      findMajorClasses_eq_tiedKeys]
  rw [findMajorClasses_eq_tiedKeys] at hret ⊢
  refine ⟨hk, tiedKeys_nodup class_count, mem_tiedKeys_iff _, ⟨?_, hret⟩, ?_, ?_⟩
  · have := (U.draw_mem 0 (k - 1) g (Nat.zero_le _)).2
    omega
  · intro i hi
    rw [hret, hi]
  · intro key hkey
    rw [← hk]
    exact existsUnique_index_of_nodup _ (tiedKeys_nodup class_count) key hkey

/-- C14, instance: on `{A:5, B:5}` the draw `0` returns `A` and the draw `1`
returns `B`. -/
theorem mostFrequentValue_tie_witness :
    ((tiedKeys countsAB.entries).length = 2 ∧ 2 ≤ 2) ∧
    (findMajorClasses countsAB.entries).2 = ['A', 'B'] ∧
    mostFrequentValue countingDistribution countsAB 0 = some 'A' ∧
    mostFrequentValue countingDistribution countsAB 1 = some 'B' :=
  ⟨by decide, by decide,
    ((mostFrequentValue_tie countingDistribution countsAB 0 2 (by decide)
      (by decide)).2.2.2.2.1 0 (by decide)).trans (by decide),
    ((mostFrequentValue_tie countingDistribution countsAB 1 2 (by decide)
      (by decide)).2.2.2.2.1 1 (by decide)).trans (by decide)⟩

/-! ## Further claims about `computeConcordanceIndex` -/

/-- The returned value is the `double` quotient of the two sums. -/
theorem computeConcordanceIndex_eq_divDouble (data : Data) (predictedRisk : List ℚ)
    (dependentColumnID statusColumnID : Nat) (sampleIDs : List Nat)
    (hwf : sampleIDs = [] ∨ predictedRisk.length ≤ sampleIDs.length) :
    computeConcordanceIndex data predictedRisk dependentColumnID statusColumnID sampleIDs =
      some (divDouble
        (concordantWeight data predictedRisk dependentColumnID statusColumnID sampleIDs)
        (permissibleCount data predictedRisk dependentColumnID statusColumnID sampleIDs)) := by
  unfold computeConcordanceIndex
  rw [concordanceSums_eq_spec data predictedRisk dependentColumnID statusColumnID sampleIDs
    hwf]
  rfl

theorem mem_localPairs (n : Nat) (p : Nat × Nat) :
    p ∈ localPairs n ↔ p.1 < p.2 ∧ p.2 < n := by
  unfold localPairs
  simp only [Finset.mem_filter, Finset.mem_product, Finset.mem_range]
  omega

theorem permissiblePairs_subset (data : Data) (n dependentColumnID statusColumnID : Nat)
    (sampleIDs : List Nat) (p : Nat × Nat)
    (hp : p ∈ permissiblePairs data n dependentColumnID statusColumnID sampleIDs) :
    p.1 < p.2 ∧ p.2 < n := by
  unfold permissiblePairs at hp
  exact (mem_localPairs n p).1 (Finset.mem_filter.1 hp).1

theorem getD_mem_of_lt (l : List ℚ) (i : Nat) (hi : i < l.length) : l.getD i 0 ∈ l := by
  rw [List.getD_eq_getElem?_getD, List.getElem?_eq_getElem hi]
  exact List.getElem_mem _

/-- The credit of a pair is `0`, `1/2` or `1`. -/
theorem credit_bounds (time_i time_j risk_i risk_j : ℚ) :
    0 ≤ credit time_i time_j risk_i risk_j ∧ credit time_i time_j risk_i risk_j ≤ 1 := by
  unfold credit
  split
  · norm_num
  · split <;> norm_num

/-- A pair with equal predicted risks has credit `1/2`. -/
theorem credit_of_eq (time_i time_j risk : ℚ) : credit time_i time_j risk risk = 1 / 2 := by
  unfold credit
  rw [if_neg (by
    rintro (⟨_, h⟩ | ⟨_, h⟩) <;> exact lt_irrefl _ h), if_pos rfl]

/-- C16: when all predicted risks are equal and at least one pair is
permissible, `computeConcordanceIndex` returns exactly `0.5`; a pair that is
not skipped and has equal predicted risks adds `0.5` to the concordance and `1`
to the permissible count, whatever the order of its two times. -/
theorem computeConcordanceIndex_equal_risks (data : Data) (predictedRisk : List ℚ)
    (dependentColumnID statusColumnID : Nat) (sampleIDs : List Nat)
    (hwf : sampleIDs = [] ∨ predictedRisk.length ≤ sampleIDs.length)
    (hrisk : ∀ x ∈ predictedRisk, ∀ y ∈ predictedRisk, x = y)
    (hperm : 0 < permissibleCount data predictedRisk dependentColumnID statusColumnID
      sampleIDs) :
    computeConcordanceIndex data predictedRisk dependentColumnID statusColumnID sampleIDs =
      some (DoubleQuotient.finite (1 / 2)) ∧
    ∀ (time_i status_i time_j status_j risk : ℚ) (acc : ℚ × ℚ),
      ¬ skipped time_i status_i time_j status_j →
      pairUpdate time_i status_i time_j status_j risk risk acc = (acc.1 + 1 / 2, acc.2 + 1) := by
  constructor
  · have hw : concordantWeight data predictedRisk dependentColumnID statusColumnID sampleIDs =
        (permissibleCount data predictedRisk dependentColumnID statusColumnID sampleIDs : ℚ) *
          (1 / 2) := by
      unfold concordantWeight permissibleCount
      rw [Finset.sum_congr rfl (g := fun _ => (1 / 2 : ℚ))]
      · rw [Finset.sum_const, nsmul_eq_mul]
      · intro p hp
        have hlt := permissiblePairs_subset _ _ _ _ _ p hp
        rw [hrisk _ (getD_mem_of_lt predictedRisk p.1 (by omega)) _
          (getD_mem_of_lt predictedRisk p.2 (by omega))]
        exact credit_of_eq _ _ _
    have hne : (permissibleCount data predictedRisk dependentColumnID statusColumnID
        sampleIDs : ℚ) ≠ 0 := by
      exact_mod_cast Nat.pos_iff_ne_zero.1 hperm
    rw [computeConcordanceIndex_eq_divDouble data predictedRisk dependentColumnID
      statusColumnID sampleIDs hwf, hw]
    unfold divDouble
    rw [if_neg hne]
    congr 2
    field_simp
    ring
  · intro time_i status_i time_j status_j risk acc hns
    rw [pairUpdate_eq]
    unfold pairContribution
    rw [if_neg hns, credit_of_eq]
    rfl

/-- C16, instance: the worked example with the three predicted risks all equal
to `1/2`. -/
theorem computeConcordanceIndex_equal_risks_witness :
    ((([] : List Nat) = [] ∨ ([1 / 2, 1 / 2, 1 / 2] : List ℚ).length ≤ ([] : List Nat).length) ∧
      (∀ x ∈ ([1 / 2, 1 / 2, 1 / 2] : List ℚ), ∀ y ∈ ([1 / 2, 1 / 2, 1 / 2] : List ℚ), x = y) ∧
      0 < permissibleCount exampleData [1 / 2, 1 / 2, 1 / 2] 0 1 []) ∧
    computeConcordanceIndex exampleData [1 / 2, 1 / 2, 1 / 2] 0 1 [] =
      some (DoubleQuotient.finite (1 / 2)) :=
  ⟨⟨Or.inl rfl, by simp, by decide⟩,
    (computeConcordanceIndex_equal_risks exampleData [1 / 2, 1 / 2, 1 / 2] 0 1 [] (Or.inl rfl)
      (by simp) (by decide)).1⟩

/-- The weight lies between `0` and the number of permissible pairs. -/
theorem concordantWeight_bounds (data : Data) (predictedRisk : List ℚ)
    (dependentColumnID statusColumnID : Nat) (sampleIDs : List Nat) :
    0 ≤ concordantWeight data predictedRisk dependentColumnID statusColumnID sampleIDs ∧
    concordantWeight data predictedRisk dependentColumnID statusColumnID sampleIDs ≤
      (permissibleCount data predictedRisk dependentColumnID statusColumnID sampleIDs : ℚ) := by
  unfold concordantWeight permissibleCount
  constructor
  · exact Finset.sum_nonneg (fun p _ => (credit_bounds _ _ _ _).1)
  · rw [Finset.card_eq_sum_ones, Nat.cast_sum]
    apply Finset.sum_le_sum
    intro p _
    simpa using (credit_bounds _ _ _ _).2

/-- C17: with at least one permissible pair the returned value lies between `0`
and `1`: when the loops end the concordance accumulator is at least `0` and at
most the permissible count, and the result is their quotient; one pass of the
loop body leaves both accumulators unchanged or adds `1` to the permissible
count and `0`, `1/2` or `1` to the concordance. -/
theorem computeConcordanceIndex_range (data : Data) (predictedRisk : List ℚ)
    (dependentColumnID statusColumnID : Nat) (sampleIDs : List Nat)
    (hwf : sampleIDs = [] ∨ predictedRisk.length ≤ sampleIDs.length)
    (hperm : 0 < permissibleCount data predictedRisk dependentColumnID statusColumnID
      sampleIDs) :
    (∃ concordance permissible : ℚ,
      concordanceSums data predictedRisk dependentColumnID statusColumnID sampleIDs =
        some (concordance, permissible) ∧
      0 ≤ concordance ∧ concordance ≤ permissible ∧
      computeConcordanceIndex data predictedRisk dependentColumnID statusColumnID sampleIDs =
        some (DoubleQuotient.finite (concordance / permissible)) ∧
      0 ≤ concordance / permissible ∧ concordance / permissible ≤ 1) ∧
    ∀ (time_i status_i time_j status_j chf_i chf_j : ℚ) (acc : ℚ × ℚ),
      pairUpdate time_i status_i time_j status_j chf_i chf_j acc = acc ∨
      ((pairUpdate time_i status_i time_j status_j chf_i chf_j acc).2 = acc.2 + 1 ∧
        ((pairUpdate time_i status_i time_j status_j chf_i chf_j acc).1 = acc.1 ∨
          (pairUpdate time_i status_i time_j status_j chf_i chf_j acc).1 = acc.1 + 1 / 2 ∨
          (pairUpdate time_i status_i time_j status_j chf_i chf_j acc).1 = acc.1 + 1)) := by
  obtain ⟨hw0, hw1⟩ := concordantWeight_bounds data predictedRisk dependentColumnID
    statusColumnID sampleIDs
  have hpos : (0 : ℚ) < (permissibleCount data predictedRisk dependentColumnID
      statusColumnID sampleIDs : ℚ) := by exact_mod_cast hperm
  refine ⟨⟨_, _, concordanceSums_eq_spec data predictedRisk dependentColumnID statusColumnID
    sampleIDs hwf, hw0, hw1, ?_, div_nonneg hw0 (le_of_lt hpos), ?_⟩, ?_⟩
  · rw [computeConcordanceIndex_eq_divDouble data predictedRisk dependentColumnID
      statusColumnID sampleIDs hwf]
    unfold divDouble
    rw [if_neg (ne_of_gt hpos)]
  · rw [div_le_one hpos]
    exact hw1
  · intro time_i status_i time_j status_j chf_i chf_j acc
    unfold pairUpdate
    split
    · exact Or.inl rfl
    · split
      · exact Or.inl rfl
      · split
        · exact Or.inl rfl
        · refine Or.inr ?_
          split
          · exact ⟨rfl, Or.inr (Or.inr rfl)⟩
          · split
            · exact ⟨rfl, Or.inr (Or.inr rfl)⟩
            · split
              · exact ⟨rfl, Or.inr (Or.inl rfl)⟩
              · exact ⟨rfl, Or.inl rfl⟩

/-- C17, instance: the worked example, whose value is `1/2`. -/
theorem computeConcordanceIndex_range_witness :
    ((([] : List Nat) = [] ∨ exampleRisk.length ≤ ([] : List Nat).length) ∧
      0 < permissibleCount exampleData exampleRisk 0 1 []) ∧
    ∃ concordance permissible : ℚ,
      concordanceSums exampleData exampleRisk 0 1 [] = some (concordance, permissible) ∧
      0 ≤ concordance ∧ concordance ≤ permissible ∧
      computeConcordanceIndex exampleData exampleRisk 0 1 [] =
        some (DoubleQuotient.finite (concordance / permissible)) ∧
      0 ≤ concordance / permissible ∧ concordance / permissible ≤ 1 :=
  ⟨⟨Or.inl rfl, by decide⟩,
    (computeConcordanceIndex_range exampleData exampleRisk 0 1 [] (Or.inl rfl) (by decide)).1⟩

/-- Without censoring and with distinct times no pair is skipped. -/
theorem permissiblePairs_eq_localPairs (data : Data) (n dependentColumnID statusColumnID : Nat)
    (sampleIDs : List Nat)
    (hstatus : ∀ i, i < n → data.get (localRow sampleIDs i) statusColumnID ≠ 0)
    (htimes : ∀ i j, i < n → j < n → i ≠ j →
      data.get (localRow sampleIDs i) dependentColumnID ≠
        data.get (localRow sampleIDs j) dependentColumnID) :
    permissiblePairs data n dependentColumnID statusColumnID sampleIDs = localPairs n := by
  unfold permissiblePairs
  rw [Finset.filter_eq_self]
  intro p hp
  have hlt := (mem_localPairs n p).1 hp
  unfold skipped
  rintro (⟨_, h⟩ | ⟨_, h⟩ | ⟨h, _⟩)
  · exact hstatus p.1 (by omega) h
  · exact hstatus p.2 (by omega) h
  · exact htimes p.1 p.2 (by omega) (by omega) (by omega) h

/-- C19: with at least two samples, no censoring and pairwise distinct times,
`computeConcordanceIndex` returns exactly `1` when in every pair the sample with
the earlier time has the strictly larger predicted risk, and exactly `0` when
in every pair it has the strictly smaller predicted risk. -/
theorem computeConcordanceIndex_perfect (data : Data) (predictedRisk : List ℚ)
    (dependentColumnID statusColumnID : Nat) (sampleIDs : List Nat)
    (hwf : sampleIDs = [] ∨ predictedRisk.length ≤ sampleIDs.length)
    (hn : 2 ≤ predictedRisk.length)
    (hstatus : ∀ i, i < predictedRisk.length →
      data.get (localRow sampleIDs i) statusColumnID ≠ 0)
    (htimes : ∀ i j, i < predictedRisk.length → j < predictedRisk.length → i ≠ j →
      data.get (localRow sampleIDs i) dependentColumnID ≠
        data.get (localRow sampleIDs j) dependentColumnID) :
    ((∀ i j, i < predictedRisk.length → j < predictedRisk.length →
        data.get (localRow sampleIDs i) dependentColumnID <
          data.get (localRow sampleIDs j) dependentColumnID →
        predictedRisk.getD i 0 > predictedRisk.getD j 0) →
      computeConcordanceIndex data predictedRisk dependentColumnID statusColumnID sampleIDs =
        some (DoubleQuotient.finite 1)) ∧
    ((∀ i j, i < predictedRisk.length → j < predictedRisk.length →
        data.get (localRow sampleIDs i) dependentColumnID <
          data.get (localRow sampleIDs j) dependentColumnID →
        predictedRisk.getD i 0 < predictedRisk.getD j 0) →
      computeConcordanceIndex data predictedRisk dependentColumnID statusColumnID sampleIDs =
        some (DoubleQuotient.finite 0)) := by
  have hpp := permissiblePairs_eq_localPairs data predictedRisk.length dependentColumnID
    statusColumnID sampleIDs hstatus htimes
  have hperm : 0 < permissibleCount data predictedRisk dependentColumnID statusColumnID
      sampleIDs := by
    unfold permissibleCount
    rw [hpp, Finset.card_pos]
    exact ⟨(0, 1), (mem_localPairs _ _).2 ⟨by decide, by simpa using hn⟩⟩
  have hne : (permissibleCount data predictedRisk dependentColumnID statusColumnID
      sampleIDs : ℚ) ≠ 0 := by
    exact_mod_cast Nat.pos_iff_ne_zero.1 hperm
  rw [computeConcordanceIndex_eq_divDouble data predictedRisk dependentColumnID
    statusColumnID sampleIDs hwf]
  unfold divDouble
  rw [if_neg hne]
  constructor
  · intro hord
    have hw : concordantWeight data predictedRisk dependentColumnID statusColumnID
        sampleIDs =
        (permissibleCount data predictedRisk dependentColumnID statusColumnID sampleIDs : ℚ) := by
      unfold concordantWeight permissibleCount
      rw [Finset.sum_congr rfl (g := fun _ => (1 : ℚ))]
      · rw [Finset.sum_const, nsmul_eq_mul, mul_one]
      · intro p hp
        have hlt := permissiblePairs_subset _ _ _ _ _ p hp
        unfold credit
        rw [if_pos]
        rcases lt_or_gt_of_ne (htimes p.1 p.2 (by omega) (by omega) (by omega)) with h | h
        · exact Or.inl ⟨h, hord p.1 p.2 (by omega) (by omega) h⟩
        · exact Or.inr ⟨h, hord p.2 p.1 (by omega) (by omega) h⟩
    rw [hw, div_self hne]
  · intro hord
    have hw : concordantWeight data predictedRisk dependentColumnID statusColumnID
        sampleIDs = 0 := by
      unfold concordantWeight
      apply Finset.sum_eq_zero
      intro p hp
      have hlt := permissiblePairs_subset _ _ _ _ _ p hp
      unfold credit
      rcases lt_or_gt_of_ne (htimes p.1 p.2 (by omega) (by omega) (by omega)) with h | h
      · have hr := hord p.1 p.2 (by omega) (by omega) h
        rw [if_neg, if_neg (ne_of_lt hr)]
        rintro (⟨_, h'⟩ | ⟨h', _⟩)
        · exact lt_asymm hr h'
        · exact lt_asymm h h'
      · have hr := hord p.2 p.1 (by omega) (by omega) h
        rw [if_neg, if_neg (ne_of_gt hr)]
        rintro (⟨h', _⟩ | ⟨_, h'⟩)
        · exact lt_asymm h h'
        · exact lt_asymm hr h'
    rw [hw, zero_div]

/-- C19, instance: three uncensored samples with times `0, 1, 2`; the risks
`3, 2, 1` give `1` and the risks `1, 2, 3` give `0`. -/
theorem computeConcordanceIndex_perfect_witness :
    ((([] : List Nat) = [] ∨ ([3, 2, 1] : List ℚ).length ≤ ([] : List Nat).length) ∧
      2 ≤ ([3, 2, 1] : List ℚ).length ∧
      (∀ i, i < ([3, 2, 1] : List ℚ).length → uncensoredData.get (localRow [] i) 1 ≠ 0) ∧
      (∀ i j, i < ([3, 2, 1] : List ℚ).length → j < ([3, 2, 1] : List ℚ).length → i ≠ j →
        uncensoredData.get (localRow [] i) 0 ≠ uncensoredData.get (localRow [] j) 0) ∧
      (∀ i j, i < ([3, 2, 1] : List ℚ).length → j < ([3, 2, 1] : List ℚ).length →
        uncensoredData.get (localRow [] i) 0 < uncensoredData.get (localRow [] j) 0 →
        ([3, 2, 1] : List ℚ).getD i 0 > ([3, 2, 1] : List ℚ).getD j 0)) ∧
    computeConcordanceIndex uncensoredData [3, 2, 1] 0 1 [] = some (DoubleQuotient.finite 1) ∧
    computeConcordanceIndex uncensoredData [1, 2, 3] 0 1 [] = some (DoubleQuotient.finite 0) := by
  have hstatus : ∀ i, i < 3 → uncensoredData.get (localRow [] i) 1 ≠ 0 := by
    intro i _
    simp [uncensoredData]
  have htimes : ∀ i j, i < 3 → j < 3 → i ≠ j →
      uncensoredData.get (localRow [] i) 0 ≠ uncensoredData.get (localRow [] j) 0 := by
    intro i j _ _ hij
    simpa [uncensoredData, localRow] using hij
  have hdown : ∀ i j, i < 3 → j < 3 →
      uncensoredData.get (localRow [] i) 0 < uncensoredData.get (localRow [] j) 0 →
      ([3, 2, 1] : List ℚ).getD i 0 > ([3, 2, 1] : List ℚ).getD j 0 := by
    intro i j hi hj h
    simp only [uncensoredData, localRow, if_true, Nat.cast_lt] at h
    interval_cases i <;> interval_cases j <;> (simp at h ⊢; try norm_num)
  have hup : ∀ i j, i < 3 → j < 3 →
      uncensoredData.get (localRow [] i) 0 < uncensoredData.get (localRow [] j) 0 →
      ([1, 2, 3] : List ℚ).getD i 0 < ([1, 2, 3] : List ℚ).getD j 0 := by
    intro i j hi hj h
    simp only [uncensoredData, localRow, if_true, Nat.cast_lt] at h
    interval_cases i <;> interval_cases j <;> (simp at h ⊢; try norm_num)
  exact ⟨⟨Or.inl rfl, by decide, hstatus, htimes, hdown⟩,
    (computeConcordanceIndex_perfect uncensoredData [3, 2, 1] 0 1 [] (Or.inl rfl) (by decide)
      hstatus htimes).1 hdown,
    (computeConcordanceIndex_perfect uncensoredData [1, 2, 3] 0 1 [] (Or.inl rfl) (by decide)
      hstatus htimes).2 hup⟩

/-! ## Reordering the samples -/

/-- The skip rule and the credit rule do not depend on the order of the pair. -/
theorem pairContribution_symm (time_i status_i time_j status_j risk_i risk_j : ℚ) :
    pairContribution time_i status_i time_j status_j risk_i risk_j =
      pairContribution time_j status_j time_i status_i risk_j risk_i := by
  have hskip : skipped time_i status_i time_j status_j ↔
      skipped time_j status_j time_i status_i := by
    unfold skipped
    constructor
    · rintro (h | h | ⟨h1, h2⟩)
      · exact Or.inr (Or.inl h)
      · exact Or.inl h
      · exact Or.inr (Or.inr ⟨h1.symm, h2.symm⟩)
    · rintro (h | h | ⟨h1, h2⟩)
      · exact Or.inr (Or.inl h)
      · exact Or.inl h
      · exact Or.inr (Or.inr ⟨h1.symm, h2.symm⟩)
  have hcredit : credit time_i time_j risk_i risk_j = credit time_j time_i risk_j risk_i := by
    unfold credit
    have h1 : ((time_i < time_j ∧ risk_i > risk_j) ∨ (time_j < time_i ∧ risk_j > risk_i)) ↔
        ((time_j < time_i ∧ risk_j > risk_i) ∨ (time_i < time_j ∧ risk_i > risk_j)) := Or.comm
    have h2 : risk_i = risk_j ↔ risk_j = risk_i := eq_comm
    simp only [h1, h2]
  unfold pairContribution
  simp only [hskip, hcredit]

/-- A sum over ordered pairs of a symmetric function does not change when the
list is permuted. -/
theorem pairSum_perm {β : Type} (G : β → β → ℚ × ℚ) (hG : ∀ a b, G a b = G b a)
    {xs ys : List β} (h : xs.Perm ys) : pairSum G xs = pairSum G ys := by
  induction h with
  | nil => rfl
  | cons x h ih =>
    simp only [pairSum]
    rw [ih, (h.map (G x)).sum_eq]
  | swap x y l =>
    simp only [pairSum, List.map_cons, List.sum_cons]
    rw [hG y x]
    abel
  | trans _ _ ih1 ih2 => exact ih1.trans ih2

theorem sum_range_getD {β : Type} (h : β → ℚ × ℚ) (d : β) : ∀ xs : List β,
    ∑ k ∈ Finset.range xs.length, h (xs.getD k d) = (xs.map h).sum
  | [] => by simp
  | x :: xs => by
    rw [List.length_cons, Finset.sum_range_succ', List.map_cons, List.sum_cons,
      List.getD_cons_zero, add_comm]
    congr 1
    rw [← sum_range_getD h d xs]
    apply Finset.sum_congr rfl
    intro k _
    rw [List.getD_cons_succ]

/-- The double sum over the index pairs `i < j` is the sum over the pairs of
entries of the list. -/
theorem sum_pairs_eq_pairSum {β : Type} (G : β → β → ℚ × ℚ) (d : β) : ∀ xs : List β,
    ∑ i ∈ Finset.range xs.length, ∑ j ∈ Finset.Ico (i + 1) xs.length,
      G (xs.getD i d) (xs.getD j d) = pairSum G xs
  | [] => by simp [pairSum]
  | x :: xs => by
    rw [List.length_cons, Finset.sum_range_succ', pairSum, add_comm]
    congr 1
    · rw [Finset.sum_Ico_eq_sum_range, Nat.zero_add, Nat.add_sub_cancel,
        ← sum_range_getD (G x) d xs]
      apply Finset.sum_congr rfl
      intro k _
      rw [List.getD_cons_zero, Nat.add_comm 1 k, List.getD_cons_succ]
    · rw [← sum_pairs_eq_pairSum G d xs]
      apply Finset.sum_congr rfl
      intro i _
      rw [← Finset.sum_Ico_add' _ (i + 1) xs.length 1]
      apply Finset.sum_congr rfl
      intro j _
      rw [List.getD_cons_succ, List.getD_cons_succ]

/-- The accumulators of a run on the samples `(risk, row)` of a non-empty list
are the pair sum of the contributions. -/
theorem concordanceSums_eq_pairSum (data : Data) (dependent_varID status_varID : Nat)
    (samples : List (ℚ × Nat)) (hne : samples ≠ []) :
    concordanceSums data (samples.map Prod.fst) dependent_varID status_varID
        (samples.map Prod.snd) =
      some (pairSum (sampleContribution data dependent_varID status_varID) samples) := by
  rw [concordanceSums_eq data _ dependent_varID status_varID _ (Or.inr (by simp)),
    ← sum_pairs_eq_pairSum _ ((0 : ℚ), 0) samples, List.length_map]
  refine congrArg some (Finset.sum_congr rfl ?_)
  intro i _
  refine Finset.sum_congr rfl ?_
  intro j _
  have hids : samples.map Prod.snd ≠ [] := by simpa using hne
  have hrow : ∀ k, localRow (samples.map Prod.snd) k = (samples.getD k ((0 : ℚ), 0)).2 := by
    intro k
    unfold localRow
    rw [if_neg hids]
    exact List.getD_map samples ((0 : ℚ), 0) Prod.snd
  have hrisk : ∀ k, (samples.map Prod.fst).getD k 0 = (samples.getD k ((0 : ℚ), 0)).1 := by
    intro k
    exact List.getD_map samples ((0 : ℚ), 0) Prod.fst
  unfold contributionAt sampleContribution
  rw [hrow i, hrow j, hrisk i, hrisk j]

/-- C18: when a permutation is applied to the predicted risks and to a
non-empty list of sample IDs of the same length at once, the number of
permissible pairs, the concordance weight and the returned value do not
change. -/
theorem computeConcordanceIndex_permutation (data : Data)
    (dependentColumnID statusColumnID : Nat) (predictedRisk predictedRisk' : List ℚ)
    (sampleIDs sampleIDs' : List Nat) (hne : sampleIDs ≠ [])
    (hlen : predictedRisk.length = sampleIDs.length)
    (hlen' : predictedRisk'.length = sampleIDs'.length)
    (hperm : (predictedRisk.zip sampleIDs).Perm (predictedRisk'.zip sampleIDs')) :
    permissibleCount data predictedRisk dependentColumnID statusColumnID sampleIDs =
      permissibleCount data predictedRisk' dependentColumnID statusColumnID sampleIDs' ∧
    concordantWeight data predictedRisk dependentColumnID statusColumnID sampleIDs =
      concordantWeight data predictedRisk' dependentColumnID statusColumnID sampleIDs' ∧
    computeConcordanceIndex data predictedRisk dependentColumnID statusColumnID sampleIDs =
      computeConcordanceIndex data predictedRisk' dependentColumnID statusColumnID
        sampleIDs' := by
  have hz : predictedRisk.zip sampleIDs ≠ [] := by
    intro h
    have hl := congrArg List.length h
    rw [List.length_zip, hlen] at hl
    simp at hl
    exact hne hl
  have hz' : predictedRisk'.zip sampleIDs' ≠ [] := by
    intro h
    rw [h] at hperm
    exact hz hperm.eq_nil
  have hsum : concordanceSums data predictedRisk dependentColumnID statusColumnID sampleIDs =
      concordanceSums data predictedRisk' dependentColumnID statusColumnID sampleIDs' := by
    have e := concordanceSums_eq_pairSum data dependentColumnID statusColumnID _ hz
    have e' := concordanceSums_eq_pairSum data dependentColumnID statusColumnID _ hz'
    rw [List.map_fst_zip _ _ (Nat.le_of_eq hlen),
      List.map_snd_zip _ _ (Nat.le_of_eq hlen.symm)] at e
    rw [List.map_fst_zip _ _ (Nat.le_of_eq hlen'),
      List.map_snd_zip _ _ (Nat.le_of_eq hlen'.symm)] at e'
    rw [e, e', pairSum_perm (sampleContribution data dependentColumnID statusColumnID)
      (fun a b => pairContribution_symm _ _ _ _ _ _) hperm]
  have hspec := concordanceSums_eq_spec data predictedRisk dependentColumnID statusColumnID
    sampleIDs (Or.inr (Nat.le_of_eq hlen))
  have hspec' := concordanceSums_eq_spec data predictedRisk' dependentColumnID statusColumnID
    sampleIDs' (Or.inr (Nat.le_of_eq hlen'))
  rw [hsum, hspec'] at hspec
  have hpair := Option.some.inj hspec
  have hw := (Prod.mk.inj hpair).1
  have hp : permissibleCount data predictedRisk dependentColumnID statusColumnID sampleIDs =
      permissibleCount data predictedRisk' dependentColumnID statusColumnID sampleIDs' := by
    exact_mod_cast (Prod.mk.inj hpair).2.symm
  refine ⟨hp, hw.symm, ?_⟩
  unfold computeConcordanceIndex
  rw [hsum]

/-- C18, instance: the worked example with its three samples rotated. -/
theorem computeConcordanceIndex_permutation_witness :
    (([0, 1, 2] : List Nat) ≠ [] ∧ exampleRisk.length = ([0, 1, 2] : List Nat).length ∧
      ([5 / 10, 2 / 10, 8 / 10] : List ℚ).length = ([2, 0, 1] : List Nat).length ∧
      (exampleRisk.zip [0, 1, 2]).Perm (([5 / 10, 2 / 10, 8 / 10] : List ℚ).zip [2, 0, 1])) ∧
    computeConcordanceIndex exampleData exampleRisk 0 1 [0, 1, 2] =
      computeConcordanceIndex exampleData [5 / 10, 2 / 10, 8 / 10] 0 1 [2, 0, 1] :=
  ⟨⟨by decide, by decide, by decide,
      @List.perm_append_comm (ℚ × Nat) [(2 / 10, 0), (8 / 10, 1)] [(5 / 10, 2)]⟩,
    (computeConcordanceIndex_permutation exampleData 0 1 exampleRisk [5 / 10, 2 / 10, 8 / 10]
      [0, 1, 2] [2, 0, 1] (by decide) (by decide) (by decide)
      (@List.perm_append_comm (ℚ × Nat) [(2 / 10, 0), (8 / 10, 1)] [(5 / 10, 2)])).2.2⟩

/-! ## Claims about `roundToNextMultiple` -/

/-- C20, failing input: for `value = 2147483648` and `multiple = 4294967295`
the remainder `2147483648` does not fit `int` and becomes `-2147483648`; the
function returns `8589934591`, which is not a multiple of `4294967295`, while
the smallest multiple that is at least `value` is `4294967295` and fits. -/
theorem roundToNextMultiple_narrowing :
    toInt (2147483648 % 4294967295) = -2147483648 ∧
    roundToNextMultiple 2147483648 4294967295 = 8589934591 ∧
    ¬ (4294967295 ∣ roundToNextMultiple 2147483648 4294967295) ∧
    (4294967295 ∣ 4294967295 ∧ 2147483648 ≤ 4294967295 ∧ 4294967295 < SIZE_T_SIZE ∧
      ∀ m, 4294967295 ∣ m → 2147483648 ≤ m → 4294967295 ≤ m) := by
  refine ⟨by decide, by decide, by decide, dvd_refl _, by decide, by decide, ?_⟩
  intro m hdvd hle
  exact Nat.le_of_dvd (by omega) hdvd

/-- A remainder below `2 ^ 31` is not changed by the conversion to `int`. -/
theorem toInt_of_lt (x : Nat) (hx : x < UINT_SIZE / 2) : toInt x = (x : Int) := by
  have hlt : x < UINT_SIZE := Nat.lt_of_lt_of_le hx (Nat.div_le_self _ _)
  unfold toInt
  rw [Nat.mod_eq_of_lt hlt, if_pos hx]

/-- A value that is a multiple already is returned unchanged. -/
theorem roundToNextMultiple_of_mod_eq_zero (value multiple : Nat)
    (h0 : value % multiple = 0) : roundToNextMultiple value multiple = value := by
  unfold roundToNextMultiple
  split
  · rfl
  · rw [h0]
    simp [toInt, UINT_SIZE]

/-- When the remainder fits `int` (in particular for `multiple ≤ 2 ^ 31`) and
the result fits `size_t`, the function returns `value` rounded up to the next
multiple of `multiple`. -/
theorem roundToNextMultiple_of_small (value multiple : Nat) (hm : 0 < multiple)
    (hr : value % multiple < UINT_SIZE / 2)
    (hfit : value + multiple - value % multiple < SIZE_T_SIZE) :
    roundToNextMultiple value multiple =
      (if value % multiple = 0 then value else value + multiple - value % multiple) ∧
    multiple ∣ roundToNextMultiple value multiple ∧
    value ≤ roundToNextMultiple value multiple ∧
    (∀ m, multiple ∣ m → value ≤ m → roundToNextMultiple value multiple ≤ m) ∧
    roundToNextMultiple (roundToNextMultiple value multiple) multiple =
      roundToNextMultiple value multiple := by
  have hlt := Nat.mod_lt value hm
  have hdm := Nat.div_add_mod value multiple
  have hval : roundToNextMultiple value multiple =
      (if value % multiple = 0 then value else value + multiple - value % multiple) := by
    unfold roundToNextMultiple
    rw [if_neg (Nat.pos_iff_ne_zero.1 hm)]
    simp only [toInt_of_lt _ hr]
    by_cases h0 : value % multiple = 0
    · simp [h0]
    · rw [if_neg (by exact_mod_cast h0), if_neg h0]
      have hpos : (0 : Int) < (SIZE_T_SIZE : Int) := by decide
      have e : (((value + multiple) % SIZE_T_SIZE : Nat) : Int) - (value % multiple : Nat) =
          ((value + multiple - value % multiple : Nat) : Int) +
            (SIZE_T_SIZE : Int) * (-(((value + multiple) / SIZE_T_SIZE : Nat) : Int)) := by
        have h1 := Nat.div_add_mod (value + multiple) SIZE_T_SIZE
        have h2 : ((value + multiple - value % multiple : Nat) : Int) =
            (value + multiple : Nat) - (value % multiple : Nat) := by
          rw [Nat.cast_sub (by omega)]
        rw [h2]
        have h3 : ((value + multiple : Nat) : Int) =
            (SIZE_T_SIZE : Int) * ((value + multiple) / SIZE_T_SIZE : Nat) +
              ((value + multiple) % SIZE_T_SIZE : Nat) := by
          exact_mod_cast h1.symm
        rw [h3]
        ring
      rw [e, Int.add_mul_emod_self_left, Int.emod_eq_of_lt (Int.natCast_nonneg _)
        (by exact_mod_cast hfit), Int.toNat_ofNat]
  have hdvd : multiple ∣ roundToNextMultiple value multiple := by
    rw [hval]
    by_cases h0 : value % multiple = 0
    · rw [if_pos h0]
      exact Nat.dvd_of_mod_eq_zero h0
    · rw [if_neg h0]
      refine ⟨value / multiple + 1, ?_⟩
      rw [Nat.mul_add, Nat.mul_one]
      omega
  have hle : value ≤ roundToNextMultiple value multiple := by
    rw [hval]
    split <;> omega
  refine ⟨hval, hdvd, hle, ?_, ?_⟩
  · intro m hmd hvm
    rw [hval]
    by_cases h0 : value % multiple = 0
    · rw [if_pos h0]; exact hvm
    · rw [if_neg h0]
      obtain ⟨k, rfl⟩ := hmd
      by_contra hcon
      have hk : k ≤ value / multiple := by
        by_contra hk
        have : multiple * (value / multiple + 1) ≤ multiple * k :=
          Nat.mul_le_mul_left _ (by omega)
        rw [Nat.mul_add, Nat.mul_one] at this
        omega
      have : multiple * k ≤ multiple * (value / multiple) := Nat.mul_le_mul_left _ hk
      omega
  · exact roundToNextMultiple_of_mod_eq_zero _ _ (Nat.mod_eq_zero_of_dvd hdvd)

/-! ## The unguarded division of `computeConcordanceIndex` -/

/-- A skipped pair leaves both accumulators as they are. -/
theorem ieee_pairUpdate_of_skipped (time_i status_i time_j status_j chf_i chf_j : Double)
    (acc : ℚ × ℚ) (h : Ieee.skipped time_i status_i time_j status_j = true) :
    Ieee.pairUpdate time_i status_i time_j status_j chf_i chf_j acc = acc := by
  unfold Ieee.skipped at h
  unfold Ieee.pairUpdate
  by_cases h1 : (time_i.lt time_j && status_i.eq (Double.finite 0)) = true
  · rw [if_pos h1]
  rw [if_neg h1]
  by_cases h2 : (time_j.lt time_i && status_j.eq (Double.finite 0)) = true
  · rw [if_pos h2]
  rw [if_neg h2]
  by_cases h3 : (time_i.eq time_j && status_i.eq status_j) = true
  · rw [if_pos h3]
  · exfalso
    simp only [Bool.or_eq_true] at h
    rcases h with (h | h) | h
    · exact h1 h
    · exact h2 h
    · exact h3 h

/-- A monadic fold whose steps return the accumulator returns it. -/
theorem foldlM_fixed {M : Type} (f : M → Nat → Option M) (acc : M) :
    ∀ l : List Nat, (∀ x ∈ l, f acc x = some acc) → l.foldlM f acc = some acc
  | [], _ => rfl
  | x :: l, h => by
    rw [List.foldlM_cons, h x (by simp)]
    exact foldlM_fixed f acc l (fun y hy => h y (List.mem_cons_of_mem _ hy))

/-- When every pair of local positions is skipped, both accumulators are `0`
when the loops are left. -/
theorem ieee_concordanceSums_of_skipped (data : DoubleData) (sum_chf : List Double)
    (dependent_varID status_varID : Nat) (sample_IDs : List Nat)
    (hwf : sample_IDs = [] ∨ sum_chf.length ≤ sample_IDs.length)
    (hskip : ∀ i j, i < j → j < sum_chf.length →
      Ieee.skipped (data.get (localRow sample_IDs i) dependent_varID)
        (data.get (localRow sample_IDs i) status_varID)
        (data.get (localRow sample_IDs j) dependent_varID)
        (data.get (localRow sample_IDs j) status_varID) = true) :
    Ieee.concordanceSums data sum_chf dependent_varID status_varID sample_IDs =
      some (0, 0) := by
  unfold Ieee.concordanceSums
  apply foldlM_fixed
  intro i hi
  rw [List.mem_range] at hi
  unfold Ieee.outerStep
  rw [sampleOf_eq_localRow sample_IDs _ i hwf hi]
  simp only [Option.bind_eq_bind, Option.some_bind]
  apply foldlM_fixed
  intro j hj
  rw [List.mem_range'_1] at hj
  have hjn : j < sum_chf.length := by omega
  unfold Ieee.innerStep
  rw [sampleOf_eq_localRow sample_IDs _ j hwf hjn]
  simp only [Option.bind_eq_bind, Option.some_bind, List.getElem?_eq_getElem hi,
    List.getElem?_eq_getElem hjn]
  rw [ieee_pairUpdate_of_skipped _ _ _ _ _ _ _ (hskip i j (by omega) hjn)]
  rfl

/-- Two `double` values of which none is NaN are ordered or equal. -/
theorem double_trichotomy (a b : Double) (ha : a ≠ Double.nan) (hb : b ≠ Double.nan) :
    a.lt b = true ∨ b.lt a = true ∨ a.eq b = true := by
  cases a <;> cases b <;> simp [Double.lt, Double.eq] at ha hb ⊢
  exact lt_trichotomy _ _ |>.imp_right (fun h => h.symm)

/-- On finite values the comparisons of `double` are those of the rationals. -/
theorem ieee_pairUpdate_finite (time_i status_i time_j status_j chf_i chf_j : ℚ)
    (acc : ℚ × ℚ) :
    Ieee.pairUpdate (Double.finite time_i) (Double.finite status_i) (Double.finite time_j)
        (Double.finite status_j) (Double.finite chf_i) (Double.finite chf_j) acc =
      pairUpdate time_i status_i time_j status_j chf_i chf_j acc := by
  unfold Ieee.pairUpdate pairUpdate
  simp only [Double.lt, Double.eq, Bool.and_eq_true, decide_eq_true_eq, gt_iff_lt]

theorem ieee_innerStep_finite (data : Data) (sum_chf : List ℚ)
    (dependent_varID status_varID : Nat) (sample_IDs : List Nat) (i : Nat)
    (time_i status_i : ℚ) (acc : ℚ × ℚ) (j : Nat) :
    Ieee.innerStep data.toDouble (sum_chf.map Double.finite) dependent_varID status_varID
        sample_IDs i (Double.finite time_i) (Double.finite status_i) acc j =
      innerStep data sum_chf dependent_varID status_varID sample_IDs i time_i status_i acc j := by
  unfold Ieee.innerStep innerStep
  cases sampleOf sample_IDs j with
  | none => rfl
  | some sample_j =>
    simp only [Option.bind_eq_bind, Option.some_bind, List.getElem?_map]
    cases sum_chf[i]? with
    | none => rfl
    | some chf_i =>
      cases sum_chf[j]? with
      | none => rfl
      | some chf_j =>
        simp only [Option.map_some', Option.some_bind, Data.toDouble]
        rw [ieee_pairUpdate_finite]

theorem ieee_outerStep_finite (data : Data) (sum_chf : List ℚ)
    (dependent_varID status_varID : Nat) (sample_IDs : List Nat) (acc : ℚ × ℚ) (i : Nat) :
    Ieee.outerStep data.toDouble (sum_chf.map Double.finite) dependent_varID status_varID
        sample_IDs acc i =
      outerStep data sum_chf dependent_varID status_varID sample_IDs acc i := by
  unfold Ieee.outerStep outerStep
  cases sampleOf sample_IDs i with
  | none => rfl
  | some sample_i =>
    simp only [Option.bind_eq_bind, Option.some_bind, List.length_map]
    apply foldlM_congr
    intro j _ a
    exact ieee_innerStep_finite data sum_chf dependent_varID status_varID sample_IDs i _ _ a j

/-- On data and predicted risks that are finite, the function on `double`
values is the function on rational values. -/
theorem ieee_computeConcordanceIndex_finite (data : Data) (sum_chf : List ℚ)
    (dependent_varID status_varID : Nat) (sample_IDs : List Nat) :
    Ieee.computeConcordanceIndex data.toDouble (sum_chf.map Double.finite) dependent_varID
        status_varID sample_IDs =
      computeConcordanceIndex data sum_chf dependent_varID status_varID sample_IDs := by
  unfold Ieee.computeConcordanceIndex computeConcordanceIndex Ieee.concordanceSums
    concordanceSums
  rw [List.length_map]
  congr 1
  apply foldlM_congr
  intro i _ a
  exact ieee_outerStep_finite data sum_chf dependent_varID status_varID sample_IDs a i

/-- C15, counterexample: two censored samples (status `0`), the first with a
NaN time, the second with time `1`.  All comparisons with the NaN time are
false, so none of the three skip tests holds: the pair is counted as
permissible, the accumulators are `(0, 1)` and the function returns `0 / 1`,
not `0 / 0`. -/
theorem computeConcordanceIndex_nan_time_counterexample :
    nanTimeData.get 0 1 = Double.finite 0 ∧ nanTimeData.get 1 1 = Double.finite 0 ∧
    nanTimeData.get 0 0 = Double.nan ∧
    Ieee.concordanceSums nanTimeData [Double.finite 1, Double.finite 2] 0 1 [] =
      some (0, 1) ∧
    Ieee.computeConcordanceIndex nanTimeData [Double.finite 1, Double.finite 2] 0 1 [] =
      some (DoubleQuotient.finite 0) := by
  have hsum : Ieee.concordanceSums nanTimeData [Double.finite 1, Double.finite 2] 0 1 [] =
      some (0, 1) := by
    simp [Ieee.concordanceSums, Ieee.outerStep, Ieee.innerStep, Ieee.pairUpdate, sampleOf,
      nanTimeData, Double.lt, Double.eq, List.range_succ, List.range']
  refine ⟨rfl, rfl, rfl, hsum, ?_⟩
  unfold Ieee.computeConcordanceIndex
  rw [hsum]
  simp [divDouble]

/-- C15 (amended): whenever no pair is permissible both accumulators are `0`
when the loops end and the unguarded division `0 / 0` yields NaN.  This is the
case for every input with fewer than two samples, and for every input whose
samples are all censored (status `0`) and have no NaN time, whatever the
predicted risks (NaN and infinities included). -/
theorem computeConcordanceIndex_undefined_ratio (data : DoubleData)
    (predictedRisk : List Double) (dependentColumnID statusColumnID : Nat)
    (sampleIDs : List Nat)
    (hwf : sampleIDs = [] ∨ predictedRisk.length ≤ sampleIDs.length) :
    ((∀ i j, i < j → j < predictedRisk.length →
        Ieee.skipped (data.get (localRow sampleIDs i) dependentColumnID)
          (data.get (localRow sampleIDs i) statusColumnID)
          (data.get (localRow sampleIDs j) dependentColumnID)
          (data.get (localRow sampleIDs j) statusColumnID) = true) →
      Ieee.concordanceSums data predictedRisk dependentColumnID statusColumnID sampleIDs =
        some (0, 0) ∧
      Ieee.computeConcordanceIndex data predictedRisk dependentColumnID statusColumnID
        sampleIDs = some DoubleQuotient.nan) ∧
    (predictedRisk.length < 2 →
      Ieee.concordanceSums data predictedRisk dependentColumnID statusColumnID sampleIDs =
        some (0, 0) ∧
      Ieee.computeConcordanceIndex data predictedRisk dependentColumnID statusColumnID
        sampleIDs = some DoubleQuotient.nan) ∧
    ((∀ i, i < predictedRisk.length →
        data.get (localRow sampleIDs i) statusColumnID = Double.finite 0) →
      (∀ i, i < predictedRisk.length →
        data.get (localRow sampleIDs i) dependentColumnID ≠ Double.nan) →
      Ieee.concordanceSums data predictedRisk dependentColumnID statusColumnID sampleIDs =
        some (0, 0) ∧
      Ieee.computeConcordanceIndex data predictedRisk dependentColumnID statusColumnID
        sampleIDs = some DoubleQuotient.nan) := by
  have hmain : (∀ i j, i < j → j < predictedRisk.length →
        Ieee.skipped (data.get (localRow sampleIDs i) dependentColumnID)
          (data.get (localRow sampleIDs i) statusColumnID)
          (data.get (localRow sampleIDs j) dependentColumnID)
          (data.get (localRow sampleIDs j) statusColumnID) = true) →
      Ieee.concordanceSums data predictedRisk dependentColumnID statusColumnID sampleIDs =
        some (0, 0) ∧
      Ieee.computeConcordanceIndex data predictedRisk dependentColumnID statusColumnID
        sampleIDs = some DoubleQuotient.nan := by
    intro hskip
    have hsum := ieee_concordanceSums_of_skipped data predictedRisk dependentColumnID
      statusColumnID sampleIDs hwf hskip
    refine ⟨hsum, ?_⟩
    unfold Ieee.computeConcordanceIndex
    rw [hsum]
    simp [divDouble]
  refine ⟨hmain, ?_, ?_⟩
  · intro hn
    apply hmain
    intro i j hij hj
    omega
  · intro hstatus htime
    apply hmain
    intro i j hij hj
    unfold Ieee.skipped
    rw [hstatus i (by omega), hstatus j hj]
    have hzero : (Double.finite 0).eq (Double.finite 0) = true := by
      simp [Double.eq]
    rw [hzero]
    rcases double_trichotomy _ _ (htime i (by omega)) (htime j hj) with h | h | h
    · simp [h]
    · simp [h]
    · simp [h]

/-- C15, instance: three censored samples with the times `-inf`, `1`, `1` and
the predicted risks NaN, `1`, `+inf`; and a single sample. -/
theorem computeConcordanceIndex_undefined_ratio_witness :
    ((([] : List Nat) = [] ∨
        ([Double.nan, Double.finite 1, Double.posInf] : List Double).length ≤
          ([] : List Nat).length) ∧
      (∀ i, i < ([Double.nan, Double.finite 1, Double.posInf] : List Double).length →
        censoredData.get (localRow [] i) 1 = Double.finite 0) ∧
      (∀ i, i < ([Double.nan, Double.finite 1, Double.posInf] : List Double).length →
        censoredData.get (localRow [] i) 0 ≠ Double.nan)) ∧
    Ieee.computeConcordanceIndex censoredData [Double.nan, Double.finite 1, Double.posInf]
      0 1 [] = some DoubleQuotient.nan ∧
    Ieee.computeConcordanceIndex nanTimeData [Double.finite 1] 0 1 [] =
      some DoubleQuotient.nan := by
  have hstatus : ∀ i, i < 3 → censoredData.get (localRow [] i) 1 = Double.finite 0 := by
    intro i hi
    interval_cases i <;> rfl
  have htime : ∀ i, i < 3 → censoredData.get (localRow [] i) 0 ≠ Double.nan := by
    intro i hi
    interval_cases i <;> simp [censoredData, localRow]
  exact ⟨⟨Or.inl rfl, hstatus, htime⟩,
    ((computeConcordanceIndex_undefined_ratio censoredData
      [Double.nan, Double.finite 1, Double.posInf] 0 1 [] (Or.inl rfl)).2.2 hstatus htime).2,
    ((computeConcordanceIndex_undefined_ratio nanTimeData [Double.finite 1] 0 1 []
      (Or.inl rfl)).2.1 (by decide)).2⟩

end Grf
